import Mathlib

/-!
Verification of the sync-planning / transactional-apply engine of the
`synk` file-synchronization CLI (`synk/sync.py`, `synk/utils.py`).

The embedding is a shallow one:

* OS and external-git behavior that the code only observes (path
  resolution, `os.path.dirname`, `os.path.isdir`, the output of
  `git rev-parse --git-dir` run in a given working directory) is an
  oracle record `Env`; the logic of the Python code on top of these
  observations is translated line by line.
* The mutable state visible to the code is a `World`: the map from
  paths to regular-file contents, the set of (repo, path) pairs
  currently staged in a git index, and the contents of the temporary
  backup files created by `tempfile.mkstemp` (which the code never
  deletes).
* External commands that can fail (`shutil.copy2`, `git add`,
  `git restore --staged`, `git commit`, `git push`) take failure
  schedules as extra parameters; an exception is modelled as the step
  reporting a `SyncError` without mutating state.
* `locate_git_repo` is a `while` loop over `os.path.dirname`, which
  need not terminate; it is given a fuel parameter and returns `none`
  when the walk does not finish within the fuel, so divergence of the
  loop is `∀ fuel, result = none`.
-/

set_option linter.unusedVariables false

namespace Synk

/-- A filesystem path, as the string passed to / returned by the OS APIs. -/
abbrev Path := String

/-- Oracle for the OS-level and external-git observations made by the code.
`resolve` is `os.path.abspath(os.path.expanduser(·))`; `dirname` is
`os.path.dirname`; `isdir` is `os.path.isdir`; `gitDir d` is
`os.path.abspath` of the output of `git rev-parse --git-dir` run with
cwd `d` (`none` when the command exits non-zero or prints nothing). -/
structure Env where
  resolve : String → Path
  dirname : Path → Path
  isdir : Path → Bool
  gitDir : Path → Option Path

/-- Contents of regular files: `none` means no regular file at this path. -/
abbrev Files := Path → Option String

/-- Python truthiness of an optional string (`None` and `""` are falsy). -/
def pyTruthyOpt : Option String → Bool
  | none => false
  | some s => decide (s ≠ "")

/-- Model of `utils.file_exists`: `os.path.isfile(file_path)`. -/
def file_exists (files : Files) (p : Path) : Bool :=
  (files p).isSome

/-- Model of `utils.file_dir_exists`: `os.path.isdir(os.path.dirname(file_path))`. -/
def file_dir_exists (env : Env) (p : Path) : Bool :=
  env.isdir (env.dirname p)

/-- Model of `os.path.exists`: true for a regular file or a directory. -/
def os_path_exists (env : Env) (files : Files) (p : Path) : Bool :=
  (files p).isSome || env.isdir p

/-- Model of `filecmp.cmp(a, b, shallow=False)`: byte-for-byte comparison; `False`
when either side is not a regular file. -/
def filecmp_cmp (files : Files) (a b : Path) : Bool :=
  match files a, files b with
  | some x, some y => decide (x = y)
  | _, _ => false

/-- The `while current_dir and os.path.isdir(current_dir)` loop of
`utils.locate_git_repo`, with fuel.  `none` means the loop has not
finished within the fuel; a result of `some r` means the loop
terminated and returned `r`. -/
def locateGo (env : Env) : Nat → Path → Option (Option Path)
  | 0, _ => none
  | fuel + 1, d =>
      if d ≠ "" ∧ env.isdir d = true then
        match env.gitDir d with
        | some g => some (some (env.dirname g))
        | none => locateGo env fuel (env.dirname d)
      else some none

/-- Model of `utils.locate_git_repo(file_path)`: walk upward from
`os.path.dirname(file_path)` until `git rev-parse --git-dir` succeeds. -/
def locate_git_repo (env : Env) (fuel : Nat) (file_path : Path) : Option (Option Path) :=
  locateGo env fuel (env.dirname file_path)

/-- Model of `utils.is_valid_source_file`: resolve, then a plain existence check. -/
def is_valid_source_file (env : Env) (files : Files) (source_file : String) :
    Path × Bool :=
  let s := env.resolve source_file
  (s, file_exists files s)

/-- Model of `utils.is_valid_destination_file`: resolve; status 2 when in a git
repo and the file exists, 1 when in a git repo but the file does not
exist, 0 otherwise.  `none` when the repo walk does not terminate
within the fuel. -/
def is_valid_destination_file (env : Env) (fuel : Nat) (files : Files)
    (dst_file : String) : Option (Path × Nat × Option Path) :=
  let d := env.resolve dst_file
  if file_dir_exists env d then
    match locate_git_repo env fuel d with
    | none => none
    | some git_repo_path =>
        if pyTruthyOpt git_repo_path then
          if file_exists files d then some (d, 2, git_repo_path)
          else some (d, 1, git_repo_path)
        else some (d, 0, none)
  else some (d, 0, none)

/-- One `{source_file, destination_repo_file}` entry of the `syncs` list of a profile in the configuration store. -/
structure SyncEntry where
  source_file : String
  destination_repo_file : String
deriving DecidableEq, Repr

/-- The four classifications emitted by `plan_syncs`. -/
inductive ItemKind
  | new
  | modified
  | skipped
  | error
deriving DecidableEq, Repr

/-- One dictionary appended to `plan` by `sync.plan_syncs`.  For a
source-validation error the `destination` field holds the raw,
unresolved destination string, exactly as in the Python code; in
every other case it holds the resolved path.  Absent dictionary keys
(`git_repo` for errors, `reason` for non-errors) are `none`. -/
structure PlanItem where
  source : Path
  destination : String
  kind : ItemKind
  git_repo : Option Path := none
  reason : Option String := none
deriving DecidableEq, Repr

/-- The loop body of `sync.plan_syncs` for one sync entry; `none` when
destination validation does not terminate within the fuel. -/
def planEntry (env : Env) (fuel : Nat) (files : Files) (e : SyncEntry) :
    Option PlanItem :=
  let sv := is_valid_source_file env files e.source_file
  if sv.2 = false then
    some { source := sv.1, destination := e.destination_repo_file,
           kind := .error, reason := some "Source does not exist" }
  else
    match is_valid_destination_file env fuel files e.destination_repo_file with
    | none => none
    | some (dst, dst_status, git_repo) =>
        if dst_status = 0 ∨ pyTruthyOpt git_repo = false then
          some { source := sv.1, destination := dst, kind := .error,
                 reason := some "Destination not in git repo" }
        else if os_path_exists env files dst = false then
          some { source := sv.1, destination := dst, kind := .new,
                 git_repo := git_repo }
        else if filecmp_cmp files sv.1 dst then
          some { source := sv.1, destination := dst, kind := .skipped,
                 git_repo := git_repo }
        else
          some { source := sv.1, destination := dst, kind := .modified,
                 git_repo := git_repo }

/-- Model of `sync.plan_syncs` over the sync list of a profile, in profile order. -/
def plan_syncs (env : Env) (fuel : Nat) (files : Files) :
    List SyncEntry → Option (List PlanItem)
  | [] => some []
  | e :: rest =>
      match planEntry env fuel files e, plan_syncs env fuel files rest with
      | some it, some plan => some (it :: plan)
      | _, _ => none

/-! ## The transactional applier (`sync.apply_plan`) and the
commit/push coordinator (`sync.commit_changes`, `sync.push_changes`). -/

/-- The mutable state the core acts on: regular-file contents, the
(repo_root, path) pairs currently staged in a git index, and the
contents of the temporary backup files `tempfile.mkstemp` created
(the code never deletes them). -/
structure World where
  files : Files
  index : List (Path × Path)
  tmps : List String

/-- Which of the three fallible steps of one apply iteration raises. -/
inductive FailStep
  | backup
  | copy
  | stage
deriving DecidableEq, Repr

/-- The exception escaping `apply_plan`: which actionable item (0-based,
counting only new/modified items) failed, and at which step. -/
structure SyncError where
  idx : Nat
  step : FailStep
deriving DecidableEq, Repr

/-- Pointwise update of a file map (the effect of writing one file). -/
def fupd (f : Files) (p : Path) (v : Option String) : Files :=
  fun q => if q = p then v else f q

/-- Model of `git add dst`: set-like insertion into the staged entries. -/
def stageAdd (index : List (Path × Path)) (e : Path × Path) : List (Path × Path) :=
  if e ∈ index then index else index ++ [e]

/-- Test `item["type"] in ["new", "modified"]`. -/
def actionable (it : PlanItem) : Bool :=
  decide (it.kind = ItemKind.new ∨ it.kind = ItemKind.modified)

/-- The in-flight state of one `apply_plan` call: the world plus the
`backups` and `staged_files` bookkeeping lists. -/
structure ApplyCtx where
  w : World
  backups : List (Path × String)
  staged : List (Path × Path)

/-- Steps 2 and 3 of one apply iteration: `shutil.copy2(src, dst)` then
`git add dst`.  `f` is the scheduled failure for this item, `i` its
actionable index.  A raising step leaves the state unchanged;
`shutil.copy2` also raises when `src` is not a readable regular file. -/
def applyCopyStage (f : Option FailStep) (i : Nat) (src dst repo : Path)
    (c : ApplyCtx) : ApplyCtx × Option SyncError :=
  if f = some FailStep.copy then (c, some ⟨i, FailStep.copy⟩)
  else
    match c.w.files src with
    | none => (c, some ⟨i, FailStep.copy⟩)
    | some content =>
        let c1 : ApplyCtx :=
          { c with w := { c.w with files := fupd c.w.files dst (some content) } }
        if f = some FailStep.stage then (c1, some ⟨i, FailStep.stage⟩)
        else
          ({ c1 with
              w := { c1.w with index := stageAdd c1.w.index (repo, dst) },
              staged := c1.staged ++ [(repo, dst)] }, none)

/-- One iteration of the `apply_plan` loop for an actionable item:
backup an existing destination (`mkstemp` + `copy2`, recording the
pair in `backups`), then copy and stage.  Backing up a path that
`os.path.exists` accepts but that is not a regular file (a directory)
makes `copy2` raise. -/
def applyOne (env : Env) (f : Option FailStep) (i : Nat) (it : PlanItem)
    (c : ApplyCtx) : ApplyCtx × Option SyncError :=
  let dst := it.destination
  let src := it.source
  let repo := it.git_repo.getD ""
  if os_path_exists env c.w.files dst then
    if f = some FailStep.backup then (c, some ⟨i, FailStep.backup⟩)
    else
      match c.w.files dst with
      | none => (c, some ⟨i, FailStep.backup⟩)
      | some old =>
          let c1 : ApplyCtx :=
            { c with
                w := { c.w with tmps := c.w.tmps ++ [old] },
                backups := c.backups ++ [(dst, old)] }
          applyCopyStage f i src dst repo c1
  else applyCopyStage f i src dst repo c

/-- The `for item in plan` loop of `apply_plan`: skip non-actionable
items, stop at the first exception.  `i` counts actionable items, so
`fail` schedules failures per actionable item. -/
def applyGo (env : Env) (fail : Nat → Option FailStep) :
    List PlanItem → Nat → ApplyCtx → ApplyCtx × Option SyncError
  | [], _, c => (c, none)
  | it :: rest, i, c =>
      if actionable it then
        match applyOne env (fail i) i it c with
        | (c', none) => applyGo env fail rest (i + 1) c'
        | (c', some e) => (c', some e)
      else applyGo env fail rest i c

/-- The `for orig, backup in backups` restore loop of the rollback:
`shutil.copy2(backup, orig)` in recording order. -/
def rollbackRestore : List (Path × String) → World → World
  | [], w => w
  | (orig, old) :: rest, w =>
      rollbackRestore rest { w with files := fupd w.files orig (some old) }

/-- The `for repo, staged in staged_files` unstage loop of the rollback:
`git restore --staged` per recorded entry, each in its own
`try/except` (`ufail j = true` means the j-th unstage command fails,
which is reported and skipped). -/
def rollbackUnstage (ufail : Nat → Bool) :
    List (Path × Path) → Nat → World → World
  | [], _, w => w
  | e :: rest, j, w =>
      if ufail j then rollbackUnstage ufail rest (j + 1) w
      else
        rollbackUnstage ufail rest (j + 1)
          { w with index := w.index.filter (fun x => decide (x ≠ e)) }

/-- Model of `sync.apply_plan`: run the loop; on an exception restore all
backups, best-effort unstage everything recorded as staged, and
re-raise the original error. -/
def apply_plan (env : Env) (fail : Nat → Option FailStep) (ufail : Nat → Bool)
    (plan : List PlanItem) (w : World) : Except (SyncError × World) World :=
  match applyGo env fail plan 0 ⟨w, [], []⟩ with
  | (c, none) => Except.ok c.w
  | (c, some e) =>
      let w1 := rollbackRestore c.backups c.w
      let w2 := rollbackUnstage ufail c.staged 0 w1
      Except.error (e, w2)

/-- Whether an `apply_plan` outcome is the re-raised exception. -/
def applyRaised : Except (SyncError × World) World → Bool
  | Except.error _ => true
  | Except.ok _ => false

/-- The world an `apply_plan` call leaves behind, whether it returned
or raised (after rollback). -/
def applyOutcomeWorld : Except (SyncError × World) World → World
  | Except.ok w => w
  | Except.error (_, w) => w

/-- Computation of `set` of `git_repo` over new/modified items in
`commit_changes` and `push_changes`, as a duplicate-free list. -/
def touchedRepos (plan : List PlanItem) : List Path :=
  ((plan.filter (fun it => actionable it)).filterMap (fun it => it.git_repo)).dedup

/-- Default commit message `f"Synk[@{timestamp}]: Synced files"`. -/
def default_commit_message (now : String) : String :=
  "Synk[@" ++ now ++ "]: Synced files"

/-- The message `commit_changes` passes to `git commit -m`: the default
whenever `commit_message` is Python-falsy (absent or empty). -/
def commit_message_used (commit_message : Option String) (now : String) : String :=
  match commit_message with
  | none => default_commit_message now
  | some m => if m = "" then default_commit_message now else m

/-- The `for repo in repos` loop of `commit_changes`.  A successful
commit moves the staged entries of that repo into history (clearing them
from the index); a failed one (`cfail r = true`, the
`CalledProcessError` caught as "No changes to commit") changes
nothing.  Each attempt is recorded as `(repo, message, succeeded)`. -/
def commitGo (cfail : Path → Bool) (msg : String) :
    List Path → World → World × List (Path × String × Bool)
  | [], w => (w, [])
  | r :: rest, w =>
      if cfail r then
        let p := commitGo cfail msg rest w
        (p.1, (r, msg, false) :: p.2)
      else
        let w' : World := { w with index := w.index.filter (fun x => decide (x.1 ≠ r)) }
        let p := commitGo cfail msg rest w'
        (p.1, (r, msg, true) :: p.2)

/-- Model of `sync.commit_changes(plan, commit_message=None)`. -/
def commit_changes (cfail : Path → Bool) (plan : List PlanItem)
    (commit_message : Option String) (now : String) (w : World) :
    World × List (Path × String × Bool) :=
  commitGo cfail (commit_message_used commit_message now) (touchedRepos plan) w

/-- Model of `sync.push_changes(plan)`: one `git push` per touched repo, each in
its own `try/except`; recorded as `(repo, succeeded)`. -/
def push_changes (pfail : Path → Bool) (plan : List PlanItem) (w : World) :
    World × List (Path × Bool) :=
  (w, (touchedRepos plan).map (fun r => (r, !pfail r)))

/-- The observable outcome of one `sync_all` run: final world, the
commit and push attempts issued, and the exception that escaped the
run, if any. -/
structure RunLog where
  world : World
  commits : List (Path × String × Bool)
  pushes : List (Path × Bool)
  raised : Option SyncError

/-- Model of `sync.sync_all`: plan, confirmation gate, apply (re-raising a failed
apply before any commit/push), commit gate, push gate.  `none` when
planning does not terminate within the fuel. -/
def sync_all (env : Env) (fuel : Nat) (fail : Nat → Option FailStep)
    (ufail : Nat → Bool) (cfail pfail : Path → Bool)
    (confirmApply confirmCommit confirmPush : Bool) (now : String)
    (syncs : List SyncEntry) (w : World) : Option RunLog :=
  match plan_syncs env fuel w.files syncs with
  | none => none
  | some plan =>
      if confirmApply = false then some ⟨w, [], [], none⟩
      else
        match apply_plan env fail ufail plan w with
        | Except.error (e, w') => some ⟨w', [], [], some e⟩
        | Except.ok w' =>
            if confirmCommit then
              let pc := commit_changes cfail plan none now w'
              if confirmPush then
                let pp := push_changes pfail plan pc.1
                some ⟨pp.1, pc.2, pp.2, none⟩
              else some ⟨pc.1, pc.2, [], none⟩
            else some ⟨w', [], [], none⟩

/-! ## Concrete fixtures: a small filesystem with one repository at
`/r` (marker directory `/r/.git`), used to instantiate the theorems,
and a repository-free filesystem rooted at `/` for the termination
analysis of `locate_git_repo`. -/

/-- An environment with one git repository at `/r`: the files
`/r/d`, `/r/d1`, `/r/d2` live in it; every other path hangs off `/`,
which is not itself listed as a directory so that walks outside `/r`
stop immediately. -/
def envC : Env :=
  { resolve := fun s => s
    dirname := fun p =>
      if p = "/r/d" || p = "/r/d1" || p = "/r/d2" || p = "/r/.git" then "/r" else "/"
    isdir := fun p => p = "/r"
    gitDir := fun p => if p = "/r" then some "/r/.git" else none }

/-- An environment describing a real filesystem with no repository
anywhere above `/tmp/plain/f.txt`: all ancestor directories exist,
`os.path.dirname` fixes `/`, and `git rev-parse --git-dir` fails
everywhere. -/
def envRoot : Env :=
  { resolve := fun s => s
    dirname := fun p =>
      if p = "/tmp/plain/f.txt" then "/tmp/plain"
      else if p = "/tmp/plain" then "/tmp" else "/"
    isdir := fun p => p = "/tmp/plain" || p = "/tmp" || p = "/"
    gitDir := fun _ => none }

/-- No failures scheduled for the apply loop. -/
def fail0 : Nat → Option FailStep := fun _ => none

/-- Every unstage command succeeds. -/
def ufail0 : Nat → Bool := fun _ => false

/-- Source `/s` exists, destination `/r/d` does not (a `new` sync). -/
def filesA : Files := fun p => if p = "/s" then some "x" else none

/-- Source `/s` and destination `/r/d` exist with different content
(a `modified` sync). -/
def filesB : Files :=
  fun p => if p = "/s" then some "x" else if p = "/r/d" then some "old" else none

/-- The one-entry profile syncing `/s` to `/r/d`. -/
def syncsB : List SyncEntry := [⟨"/s", "/r/d"⟩]

/-- The plan computed for `syncsB` over `filesB`. -/
def planB : List PlanItem := [⟨"/s", "/r/d", ItemKind.modified, some "/r", none⟩]

/-- The world holding `filesB`, with an empty index and no temp files. -/
def wB : World := ⟨filesB, [], []⟩

/-- Two entries targeting the same destination `/r/d` (allowed by the
configuration layer, which deduplicates only full pairs). -/
def syncsC4 : List SyncEntry := [⟨"/a", "/r/d"⟩, ⟨"/b", "/r/d"⟩]

/-- Filesystem for `syncsC4`: both sources exist, with different
contents, and the shared destination holds a third content. -/
def filesC4 : Files :=
  fun p =>
    if p = "/a" then some "x" else if p = "/b" then some "y"
    else if p = "/r/d" then some "z" else none

/-- The plan computed for `syncsC4` over `filesC4`: both entries are
`modified` with the same destination. -/
def planC4 : List PlanItem :=
  [⟨"/a", "/r/d", ItemKind.modified, some "/r", none⟩,
   ⟨"/b", "/r/d", ItemKind.modified, some "/r", none⟩]

/-- The world holding `filesC4`. -/
def wC4 : World := ⟨filesC4, [], []⟩

/-- Filesystem for the rollback scenarios: `/s1` and `/s2` exist,
destination `/r/d1` does not (item 1 is `new`) and `/r/d2` exists
with old content (item 2 is `modified`). -/
def filesC1 : Files :=
  fun p =>
    if p = "/s1" then some "x1" else if p = "/s2" then some "x2"
    else if p = "/r/d2" then some "old2" else none

/-- The two-entry profile behind `filesC1`. -/
def syncsC1 : List SyncEntry := [⟨"/s1", "/r/d1"⟩, ⟨"/s2", "/r/d2"⟩]

/-- The plan computed for `syncsC1` over `filesC1`. -/
def planC1 : List PlanItem :=
  [⟨"/s1", "/r/d1", ItemKind.new, some "/r", none⟩,
   ⟨"/s2", "/r/d2", ItemKind.modified, some "/r", none⟩]

/-- The world holding `filesC1`. -/
def wC1 : World := ⟨filesC1, [], []⟩

/-- Failure schedule for the rollback scenarios: the second actionable
item fails at the copy step. -/
def failC1 : Nat → Option FailStep := fun i => if i = 1 then some FailStep.copy else none

/-- The world `apply_plan` leaves after the scheduled failure on
`planC1` and the rollback: `/r/d1` was created (and is not removed),
`/r/d2` was backed up and restored, the staged entry was removed
again, and the temporary backup of `/r/d2` is still on disk. -/
def wC1r : World :=
  ⟨fupd (fupd filesC1 "/r/d1" (some "x1")) "/r/d2" (some "old2"), [], ["old2"]⟩

/-- A plan consisting of a single `skipped` item. -/
def planSkip : List PlanItem := [⟨"/s", "/r/d", ItemKind.skipped, some "/r", none⟩]

/-- The world a fully successful apply of `planC1` leaves: both
destinations copied and staged, the backup of `/r/d2` on disk. -/
def wC1ok : World :=
  ⟨fupd (fupd filesC1 "/r/d1" (some "x1")) "/r/d2" (some "x2"),
   [("/r", "/r/d1"), ("/r", "/r/d2")], ["old2"]⟩

/-- The world a successful apply of `planB` leaves: `/r/d` overwritten
with the source content and staged, the backup of its old content on
disk. -/
def wBr : World := ⟨fupd filesB "/r/d" (some "x"), [("/r", "/r/d")], ["old"]⟩

/-! ## Shared lemmas. -/

/-- The apply loop does nothing when no item is actionable. -/
theorem applyGo_skip (env : Env) (fail : Nat → Option FailStep) :
    ∀ (rest : List PlanItem) (i : Nat) (c : ApplyCtx),
      (∀ it ∈ rest, actionable it = false) →
      applyGo env fail rest i c = (c, none)
  | [], _, _, _ => rfl
  | it :: rest, i, c, h => by
      have hit : actionable it = false := h it (List.mem_cons_self it rest)
      simp only [applyGo, hit, Bool.false_eq_true, if_false]
      exact applyGo_skip env fail rest i c (fun x hx => h x (List.mem_cons_of_mem it hx))

/-- Membership in the duplicate-free list of touched repositories. -/
theorem mem_touchedRepos (plan : List PlanItem) (r : Path) :
    r ∈ touchedRepos plan ↔ ∃ it, it ∈ plan ∧ actionable it = true ∧ it.git_repo = some r := by
  simp only [touchedRepos, List.mem_dedup, List.mem_filterMap, List.mem_filter, and_assoc]

/-- The list of touched repositories has no duplicates. -/
theorem touchedRepos_nodup (plan : List PlanItem) : (touchedRepos plan).Nodup :=
  List.nodup_dedup _

/-- A plan without actionable items touches no repository. -/
theorem touchedRepos_eq_nil (plan : List PlanItem)
    (h : ∀ it ∈ plan, actionable it = false) : touchedRepos plan = [] := by
  have : plan.filter (fun it => actionable it) = [] := by
    rw [List.filter_eq_nil_iff]
    intro it hit
    simp [h it hit]
  simp [touchedRepos, this]

/-- The commit loop attempts exactly one commit per listed repository,
with the given message, recording failure exactly where `cfail` says
the command exits non-zero. -/
theorem commitGo_snd (cfail : Path → Bool) (msg : String) :
    ∀ (rs : List Path) (w : World),
      (commitGo cfail msg rs w).2 = rs.map (fun r => (r, msg, !cfail r))
  | [], _ => rfl
  | r :: rs, w => by
      by_cases hc : cfail r = true
      · simp only [commitGo, hc, if_true, List.map_cons, Bool.not_true]
        rw [commitGo_snd cfail msg rs w]
      · simp only [commitGo, hc, Bool.false_eq_true, if_false, List.map_cons]
        rw [commitGo_snd cfail msg rs]
        simp [hc]

/-- The commit loop never touches file contents. -/
theorem commitGo_files (cfail : Path → Bool) (msg : String) :
    ∀ (rs : List Path) (w : World), (commitGo cfail msg rs w).1.files = w.files
  | [], _ => rfl
  | r :: rs, w => by
      by_cases hc : cfail r = true
      · simp only [commitGo, hc, if_true]
        exact commitGo_files cfail msg rs w
      · simp only [commitGo, hc, Bool.false_eq_true, if_false]
        exact commitGo_files cfail msg rs _

/-- The commit loop never touches the temp backup files either. -/
theorem commitGo_tmps (cfail : Path → Bool) (msg : String) :
    ∀ (rs : List Path) (w : World), (commitGo cfail msg rs w).1.tmps = w.tmps
  | [], _ => rfl
  | r :: rs, w => by
      by_cases hc : cfail r = true
      · simp only [commitGo, hc, if_true]
        exact commitGo_tmps cfail msg rs w
      · simp only [commitGo, hc, Bool.false_eq_true, if_false]
        exact commitGo_tmps cfail msg rs _

/-- In the repository-free environment, the directory walk never leaves
the filesystem root and never terminates. -/
theorem locateGo_envRoot_slash : ∀ fuel : Nat, locateGo envRoot fuel "/" = none
  | 0 => rfl
  | fuel + 1 => by
      show locateGo envRoot fuel (envRoot.dirname "/") = none
      exact locateGo_envRoot_slash fuel

/-- Starting the walk at `/tmp` also never terminates. -/
theorem locateGo_envRoot_tmp : ∀ fuel : Nat, locateGo envRoot fuel "/tmp" = none
  | 0 => rfl
  | fuel + 1 => by
      show locateGo envRoot fuel (envRoot.dirname "/tmp") = none
      exact locateGo_envRoot_slash fuel

/-- Starting the walk at `/tmp/plain` also never terminates. -/
theorem locateGo_envRoot_plain : ∀ fuel : Nat, locateGo envRoot fuel "/tmp/plain" = none
  | 0 => rfl
  | fuel + 1 => by
      show locateGo envRoot fuel (envRoot.dirname "/tmp/plain") = none
      exact locateGo_envRoot_tmp fuel

/-- Destination validation returns `none` (the walk loops forever)
whenever the parent directory exists but the repository walk does not
terminate. -/
theorem is_valid_destination_locate_none (env : Env) (fuel : Nat) (files : Files)
    (dst : String) (hdir : file_dir_exists env (env.resolve dst) = true)
    (hloc : locate_git_repo env fuel (env.resolve dst) = none) :
    is_valid_destination_file env fuel files dst = none := by
  simp [is_valid_destination_file, hdir, hloc]

/-! ## Claim theorems (part 1). -/

/-- C10: for a plan with no new/modified items, `apply_plan` performs no
copy, backup or staging and returns the world unchanged, and
`commit_changes` and `push_changes` compute an empty set of touched
repositories and invoke no VCS command, leaving everything unchanged. -/
theorem C10_no_actionable_frame (env : Env) (fail : Nat → Option FailStep)
    (ufail : Nat → Bool) (cfail pfail : Path → Bool) (plan : List PlanItem)
    (msg : Option String) (now : String) (w : World)
    (h : ∀ it ∈ plan, actionable it = false) :
    apply_plan env fail ufail plan w = Except.ok w ∧
    touchedRepos plan = [] ∧
    commit_changes cfail plan msg now w = (w, []) ∧
    push_changes pfail plan w = (w, []) := by
  have ha := applyGo_skip env fail plan 0 ⟨w, [], []⟩ h
  have ht := touchedRepos_eq_nil plan h
  refine ⟨?_, ht, ?_, ?_⟩
  · simp [apply_plan, ha]
  · simp [commit_changes, ht, commitGo]
  · simp [push_changes, ht]

/-- Witness for C10 at a concrete one-item skipped plan. -/
theorem C10_no_actionable_frame_witness :
    apply_plan envC fail0 ufail0 planSkip wB = Except.ok wB ∧
    touchedRepos planSkip = [] ∧
    commit_changes (fun _ => false) planSkip none "TS" wB = (wB, []) ∧
    push_changes (fun _ => false) planSkip wB = (wB, []) :=
  C10_no_actionable_frame envC fail0 ufail0 (fun _ => false) (fun _ => false)
    planSkip none "TS" wB (by decide)

/-- C8: `push_changes` issues exactly one push per distinct repository
root of the new/modified items; each outcome depends only on that
repository, so a failure neither aborts nor alters the processing of
the remaining repositories, and nothing is rolled back (the world is
returned untouched). -/
theorem C8_push_independent (pfail : Path → Bool) (plan : List PlanItem) (w : World) :
    push_changes pfail plan w = (w, (touchedRepos plan).map (fun r => (r, !pfail r))) ∧
    (touchedRepos plan).Nodup ∧
    (∀ r, r ∈ touchedRepos plan ↔
      ∃ it, it ∈ plan ∧ actionable it = true ∧ it.git_repo = some r) ∧
    (∀ r ∈ touchedRepos plan, (r, !pfail r) ∈ (push_changes pfail plan w).2) :=
  ⟨rfl, touchedRepos_nodup plan, mem_touchedRepos plan,
   fun _ hr => List.mem_map_of_mem _ hr⟩

/-- Witness for C8: with the push command failing, the failure is
recorded for the repository and the world is unchanged. -/
theorem C8_push_independent_witness :
    push_changes (fun _ => true) planB wB = (wB, [("/r", false)]) ∧
    "/r" ∈ touchedRepos planB := by
  refine ⟨(C8_push_independent (fun _ => true) planB wB).1, ?_⟩
  exact ((C8_push_independent (fun _ => true) planB wB).2.2.1 "/r").mpr
    ⟨⟨"/s", "/r/d", ItemKind.modified, some "/r", none⟩, by decide, by decide, rfl⟩

/-- Counterexample to C7 as stated: with the supplied commit message
`""`, the commit is issued with the generated default message, not
the supplied one (`if not commit_message` treats the empty string
like an absent message). -/
theorem C7_cex :
    (commit_changes (fun _ => false) planB (some "") "TS" wB).2 =
      [("/r", "Synk[@TS]: Synced files", true)] ∧
    ("Synk[@TS]: Synced files" : String) ≠ "" := by
  decide

/-- C7 amended: one commit per distinct touched repository root, with
the supplied message when it is non-empty and the generated
timestamped default when the message is absent or empty; a non-zero
exit is recorded as a failed attempt and never propagated, and file
contents are never rolled back. -/
theorem C7_commit_amended (cfail : Path → Bool) (plan : List PlanItem)
    (msg : Option String) (now : String) (w : World) :
    (commit_changes cfail plan msg now w).2 =
      (touchedRepos plan).map (fun r => (r, commit_message_used msg now, !cfail r)) ∧
    (commit_changes cfail plan msg now w).1.files = w.files ∧
    (touchedRepos plan).Nodup ∧
    (∀ r, r ∈ touchedRepos plan ↔
      ∃ it, it ∈ plan ∧ actionable it = true ∧ it.git_repo = some r) ∧
    (∀ m, msg = some m → m ≠ "" → commit_message_used msg now = m) ∧
    ((msg = none ∨ msg = some "") →
      commit_message_used msg now = default_commit_message now) := by
  refine ⟨commitGo_snd cfail (commit_message_used msg now) (touchedRepos plan) w,
    commitGo_files cfail (commit_message_used msg now) (touchedRepos plan) w,
    touchedRepos_nodup plan, mem_touchedRepos plan, ?_, ?_⟩
  · intro m hm hne
    subst hm
    simp [commit_message_used, hne]
  · rintro (hm | hm) <;> subst hm <;> simp [commit_message_used]

/-- Witness for amended C7: a supplied non-empty message is used as-is,
and a failing commit is recorded without being propagated. -/
theorem C7_commit_amended_witness :
    (commit_changes (fun _ => true) planB (some "m") "TS" wB).2 = [("/r", "m", false)] ∧
    commit_message_used (some "m") "TS" = "m" :=
  ⟨(C7_commit_amended (fun _ => true) planB (some "m") "TS" wB).1,
   (C7_commit_amended (fun _ => true) planB (some "m") "TS" wB).2.2.2.2.1 "m" rfl
     (by decide)⟩

/-- C9 (code bug): on a filesystem where the parent directory of the
destination exists but no enclosing repository does, the upward walk
of `locate_git_repo` never leaves `/` (`os.path.dirname("/") = "/"`)
and loops forever for every amount of fuel, so
`is_valid_destination_file` never returns the promised
`(path, 0, None)`. -/
theorem C9_validate_destination_divergence (fuel : Nat) :
    is_valid_destination_file envRoot fuel (fun _ => none) "/tmp/plain/f.txt" = none :=
  is_valid_destination_locate_none envRoot fuel (fun _ => none) "/tmp/plain/f.txt"
    (by decide) (locateGo_envRoot_plain fuel)

/-! ## Planner characterization lemmas. -/

/-- Abbreviation for the error item emitted on a missing source. -/
def srcErrItem (env : Env) (files : Files) (e : SyncEntry) : PlanItem :=
  { source := (is_valid_source_file env files e.source_file).1,
    destination := e.destination_repo_file, kind := ItemKind.error,
    git_repo := none, reason := some "Source does not exist" }

/-- Abbreviation for the error item emitted on a destination outside a
repository. -/
def dstErrItem (env : Env) (files : Files) (e : SyncEntry) (dst : Path) : PlanItem :=
  { source := (is_valid_source_file env files e.source_file).1, destination := dst,
    kind := ItemKind.error, git_repo := none,
    reason := some "Destination not in git repo" }

/-- Abbreviation for a non-error item of the given kind. -/
def okItem (env : Env) (files : Files) (e : SyncEntry) (dst : Path)
    (root : Option Path) (k : ItemKind) : PlanItem :=
  { source := (is_valid_source_file env files e.source_file).1, destination := dst,
    kind := k, git_repo := root, reason := none }

/-- Planner body, forward direction: missing source. -/
theorem planEntry_src_missing (env : Env) (fuel : Nat) (files : Files) (e : SyncEntry)
    (h : (is_valid_source_file env files e.source_file).2 = false) :
    planEntry env fuel files e = some (srcErrItem env files e) := by
  simp [planEntry, h, srcErrItem]

/-- Planner body, forward direction: destination invalid. -/
theorem planEntry_dst_error (env : Env) (fuel : Nat) (files : Files) (e : SyncEntry)
    (dst : Path) (st : Nat) (root : Option Path)
    (hs : (is_valid_source_file env files e.source_file).2 = true)
    (hd : is_valid_destination_file env fuel files e.destination_repo_file =
      some (dst, st, root))
    (h0 : st = 0 ∨ pyTruthyOpt root = false) :
    planEntry env fuel files e = some (dstErrItem env files e dst) := by
  simp only [planEntry, hs, Bool.true_eq_false, if_false, hd]
  rw [if_pos h0]
  rfl

/-- Planner body, forward direction: destination absent, kind `new`. -/
theorem planEntry_new (env : Env) (fuel : Nat) (files : Files) (e : SyncEntry)
    (dst : Path) (st : Nat) (root : Option Path)
    (hs : (is_valid_source_file env files e.source_file).2 = true)
    (hd : is_valid_destination_file env fuel files e.destination_repo_file =
      some (dst, st, root))
    (h0 : ¬(st = 0 ∨ pyTruthyOpt root = false))
    (hex : os_path_exists env files dst = false) :
    planEntry env fuel files e = some (okItem env files e dst root ItemKind.new) := by
  simp only [planEntry, hs, Bool.true_eq_false, if_false, hd]
  rw [if_neg h0, if_pos hex]
  rfl

/-- Planner body, forward direction: identical contents, kind `skipped`. -/
theorem planEntry_skipped (env : Env) (fuel : Nat) (files : Files) (e : SyncEntry)
    (dst : Path) (st : Nat) (root : Option Path)
    (hs : (is_valid_source_file env files e.source_file).2 = true)
    (hd : is_valid_destination_file env fuel files e.destination_repo_file =
      some (dst, st, root))
    (h0 : ¬(st = 0 ∨ pyTruthyOpt root = false))
    (hex : os_path_exists env files dst = true)
    (hcmp : filecmp_cmp files (is_valid_source_file env files e.source_file).1 dst = true) :
    planEntry env fuel files e = some (okItem env files e dst root ItemKind.skipped) := by
  simp only [planEntry, hs, Bool.true_eq_false, if_false, hd]
  rw [if_neg h0, if_neg (by simp [hex]), if_pos hcmp]
  rfl

/-- Planner body, forward direction: different contents, kind `modified`. -/
theorem planEntry_modified (env : Env) (fuel : Nat) (files : Files) (e : SyncEntry)
    (dst : Path) (st : Nat) (root : Option Path)
    (hs : (is_valid_source_file env files e.source_file).2 = true)
    (hd : is_valid_destination_file env fuel files e.destination_repo_file =
      some (dst, st, root))
    (h0 : ¬(st = 0 ∨ pyTruthyOpt root = false))
    (hex : os_path_exists env files dst = true)
    (hcmp : filecmp_cmp files (is_valid_source_file env files e.source_file).1 dst = false) :
    planEntry env fuel files e = some (okItem env files e dst root ItemKind.modified) := by
  simp only [planEntry, hs, Bool.true_eq_false, if_false, hd]
  rw [if_neg h0, if_neg (by simp [hex]), if_neg (by simp [hcmp])]
  rfl

/-- Planner body, inversion: every produced item arises from exactly one
of the five branches, with the branch conditions. -/
theorem planEntry_inv (env : Env) (fuel : Nat) (files : Files) (e : SyncEntry)
    (it : PlanItem) (h : planEntry env fuel files e = some it) :
    ((is_valid_source_file env files e.source_file).2 = false ∧
      it = srcErrItem env files e) ∨
    ((is_valid_source_file env files e.source_file).2 = true ∧
      ∃ dst st root,
        is_valid_destination_file env fuel files e.destination_repo_file =
          some (dst, st, root) ∧
        (((st = 0 ∨ pyTruthyOpt root = false) ∧ it = dstErrItem env files e dst) ∨
          (¬(st = 0 ∨ pyTruthyOpt root = false) ∧
            ((os_path_exists env files dst = false ∧
                it = okItem env files e dst root ItemKind.new) ∨
              (os_path_exists env files dst = true ∧
                ((filecmp_cmp files (is_valid_source_file env files e.source_file).1 dst = true ∧
                    it = okItem env files e dst root ItemKind.skipped) ∨
                  (filecmp_cmp files (is_valid_source_file env files e.source_file).1 dst = false ∧
                    it = okItem env files e dst root ItemKind.modified))))))) := by
  simp only [planEntry] at h
  split at h
  · rename_i hs
    left
    refine ⟨hs, ?_⟩
    cases h
    rfl
  · rename_i hs
    right
    have hs' : (is_valid_source_file env files e.source_file).2 = true := by
      simpa using hs
    refine ⟨hs', ?_⟩
    split at h
    · exact absurd h (by simp)
    · rename_i dst st root hd
      refine ⟨dst, st, root, hd, ?_⟩
      split at h
      · rename_i h0
        left
        cases h
        exact ⟨h0, rfl⟩
      · rename_i h0
        right
        refine ⟨h0, ?_⟩
        split at h
        · rename_i hex
          left
          cases h
          exact ⟨hex, rfl⟩
        · rename_i hex
          right
          have hex' : os_path_exists env files dst = true := by
            simpa using hex
          refine ⟨hex', ?_⟩
          split at h
          · rename_i hcmp
            left
            cases h
            exact ⟨hcmp, rfl⟩
          · rename_i hcmp
            right
            cases h
            exact ⟨by simpa using hcmp, rfl⟩

/-- Correspondence between a plan and its profile: same length, and the
i-th item is the planner output for the i-th entry. -/
theorem plan_syncs_corr (env : Env) (fuel : Nat) (files : Files) :
    ∀ (syncs : List SyncEntry) (plan : List PlanItem),
      plan_syncs env fuel files syncs = some plan →
      plan.length = syncs.length ∧
      ∀ i (h1 : i < syncs.length) (h2 : i < plan.length),
        planEntry env fuel files (syncs.get ⟨i, h1⟩) = some (plan.get ⟨i, h2⟩)
  | [], plan, h => by
      simp only [plan_syncs] at h
      cases h
      exact ⟨rfl, fun i h1 _ => absurd h1 (Nat.not_lt_zero i)⟩
  | e :: rest, plan, h => by
      simp only [plan_syncs] at h
      split at h
      · rename_i it pl hpe hps
        cases h
        obtain ⟨ihlen, ihget⟩ := plan_syncs_corr env fuel files rest pl hps
        refine ⟨by simp [ihlen], ?_⟩
        intro i h1 h2
        cases i with
        | zero => simpa using hpe
        | succ n =>
            exact ihget n (by simpa using h1) (by simpa using h2)
      · exact Option.noConfusion h

/-- Every plan item is the planner output of some profile entry. -/
theorem plan_syncs_mem (env : Env) (fuel : Nat) (files : Files) :
    ∀ (syncs : List SyncEntry) (plan : List PlanItem),
      plan_syncs env fuel files syncs = some plan →
      ∀ it ∈ plan, ∃ e, e ∈ syncs ∧ planEntry env fuel files e = some it
  | [], plan, h => by
      simp only [plan_syncs] at h
      cases h
      intro it hit
      cases hit
  | e :: rest, plan, h => by
      simp only [plan_syncs] at h
      split at h
      · rename_i it0 pl hpe hps
        cases h
        intro it hit
        rcases List.mem_cons.mp hit with rfl | hit
        · exact ⟨e, List.mem_cons_self e rest, hpe⟩
        · obtain ⟨e', he', hpe'⟩ := plan_syncs_mem env fuel files rest pl hps it hit
          exact ⟨e', List.mem_cons_of_mem e he', hpe'⟩
      · exact Option.noConfusion h

/-! ## Claim theorems (part 2). -/

/-- Counterexample to C2 as stated: the error reasons the code records
are the strings "Source does not exist" and "Destination not in git
repo", not "source missing" and "destination not in a repository". -/
theorem C2_cex :
    planEntry envC 5 filesA ⟨"/nope", "/r/d"⟩ =
      some ⟨"/nope", "/r/d", ItemKind.error, none, some "Source does not exist"⟩ ∧
    planEntry envC 5 filesA ⟨"/s", "/x"⟩ =
      some ⟨"/s", "/x", ItemKind.error, none, some "Destination not in git repo"⟩ ∧
    (some "Source does not exist" : Option String) ≠ some "source missing" ∧
    (some "Destination not in git repo" : Option String) ≠
      some "destination not in a repository" := by
  decide

/-- C2 amended: the planner classification exactly as implemented, with
the error reasons "Source does not exist" and "Destination not in git
repo" (and a Python-falsy check on the repo root). -/
theorem C2_planner_classification (env : Env) (fuel : Nat) (files : Files)
    (e : SyncEntry) (it : PlanItem) (h : planEntry env fuel files e = some it) :
    ((is_valid_source_file env files e.source_file).2 = false →
      it = srcErrItem env files e) ∧
    ∀ dst st root,
      is_valid_destination_file env fuel files e.destination_repo_file =
        some (dst, st, root) →
      (is_valid_source_file env files e.source_file).2 = true →
      (((st = 0 ∨ pyTruthyOpt root = false) → it = dstErrItem env files e dst) ∧
        (¬(st = 0 ∨ pyTruthyOpt root = false) →
          (os_path_exists env files dst = false →
            it = okItem env files e dst root ItemKind.new) ∧
          (os_path_exists env files dst = true →
            (filecmp_cmp files (is_valid_source_file env files e.source_file).1 dst = true →
              it = okItem env files e dst root ItemKind.skipped) ∧
            (filecmp_cmp files (is_valid_source_file env files e.source_file).1 dst = false →
              it = okItem env files e dst root ItemKind.modified)))) := by
  refine ⟨?_, ?_⟩
  · intro hs
    have hx := planEntry_src_missing env fuel files e hs
    rw [h] at hx
    exact (Option.some.injEq _ _).mp hx
  · intro dst st root hd hs
    refine ⟨?_, ?_⟩
    · intro h0
      have hx := planEntry_dst_error env fuel files e dst st root hs hd h0
      rw [h] at hx
      exact (Option.some.injEq _ _).mp hx
    · intro h0
      refine ⟨?_, ?_⟩
      · intro hex
        have hx := planEntry_new env fuel files e dst st root hs hd h0 hex
        rw [h] at hx
        exact (Option.some.injEq _ _).mp hx
      · intro hex
        refine ⟨?_, ?_⟩
        · intro hcmp
          have hx := planEntry_skipped env fuel files e dst st root hs hd h0 hex hcmp
          rw [h] at hx
          exact (Option.some.injEq _ _).mp hx
        · intro hcmp
          have hx := planEntry_modified env fuel files e dst st root hs hd h0 hex hcmp
          rw [h] at hx
          exact (Option.some.injEq _ _).mp hx

/-- Witness for amended C2 at a concrete missing source. -/
theorem C2_planner_classification_witness :
    (⟨"/nope", "/r/d", ItemKind.error, none, some "Source does not exist"⟩ : PlanItem) =
      srcErrItem envC filesA ⟨"/nope", "/r/d"⟩ :=
  (C2_planner_classification envC 5 filesA ⟨"/nope", "/r/d"⟩
    ⟨"/nope", "/r/d", ItemKind.error, none, some "Source does not exist"⟩
    (by decide)).1 (by decide)

/-- C5: the plan has exactly one item per sync definition, in profile
order; new/modified/skipped items carry a repo root, error items carry
a reason; an empty profile yields an empty plan. -/
theorem C5_plan_shape (env : Env) (fuel : Nat) (files : Files) (syncs : List SyncEntry)
    (plan : List PlanItem) (h : plan_syncs env fuel files syncs = some plan) :
    plan.length = syncs.length ∧
    (∀ i (h1 : i < syncs.length) (h2 : i < plan.length),
      planEntry env fuel files (syncs.get ⟨i, h1⟩) = some (plan.get ⟨i, h2⟩)) ∧
    (∀ it ∈ plan,
      ((it.kind = ItemKind.new ∨ it.kind = ItemKind.modified ∨
          it.kind = ItemKind.skipped) → it.git_repo.isSome = true) ∧
      (it.kind = ItemKind.error → it.reason.isSome = true)) ∧
    (syncs = [] → plan = []) := by
  obtain ⟨hlen, hget⟩ := plan_syncs_corr env fuel files syncs plan h
  refine ⟨hlen, hget, ?_, ?_⟩
  · intro it hit
    obtain ⟨e, _, hpe⟩ := plan_syncs_mem env fuel files syncs plan h it hit
    rcases planEntry_inv env fuel files e it hpe with ⟨_, rfl⟩ |
      ⟨_, dst, st, root, _, hcase⟩
    · exact ⟨fun hk => by rcases hk with hk | hk | hk <;> simp [srcErrItem] at hk,
        fun _ => rfl⟩
    · rcases hcase with ⟨h0, rfl⟩ | ⟨h0, hcase2⟩
      · exact ⟨fun hk => by rcases hk with hk | hk | hk <;> simp [dstErrItem] at hk,
          fun _ => rfl⟩
      · have hroot : root.isSome = true := by
          rcases root with _ | r
          · exact absurd (Or.inr rfl) h0
          · rfl
        rcases hcase2 with ⟨_, rfl⟩ | ⟨_, ⟨_, rfl⟩ | ⟨_, rfl⟩⟩ <;>
          exact ⟨fun _ => hroot, fun hk => by simp [okItem] at hk⟩
  · intro hs
    subst hs
    simp only [plan_syncs] at h
    cases h
    rfl

/-- Witness for C5 at a concrete two-entry profile. -/
theorem C5_plan_shape_witness : planC1.length = syncsC1.length :=
  (C5_plan_shape envC 5 filesC1 syncsC1 planC1 (by decide)).1

/-- C3: when `apply_plan` raises, `sync_all` re-raises the rolled-back
error as its outcome and issues no commit and no push. -/
theorem C3_failed_apply_aborts_run (env : Env) (fuel : Nat)
    (fail : Nat → Option FailStep) (ufail : Nat → Bool) (cfail pfail : Path → Bool)
    (confirmCommit confirmPush : Bool) (now : String) (syncs : List SyncEntry)
    (w w2 : World) (plan : List PlanItem) (e : SyncError)
    (hp : plan_syncs env fuel w.files syncs = some plan)
    (ha : apply_plan env fail ufail plan w = Except.error (e, w2)) :
    sync_all env fuel fail ufail cfail pfail true confirmCommit confirmPush now
      syncs w = some ⟨w2, [], [], some e⟩ := by
  simp [sync_all, hp, ha]

/-- Witness for C3 at the concrete failing two-item apply. -/
theorem C3_failed_apply_aborts_run_witness :
    sync_all envC 5 failC1 ufail0 (fun _ => false) (fun _ => false) true true true
      "TS" syncsC1 wC1 = some ⟨wC1r, [], [], some ⟨1, FailStep.copy⟩⟩ :=
  C3_failed_apply_aborts_run envC 5 failC1 ufail0 (fun _ => false) (fun _ => false)
    true true "TS" syncsC1 wC1 wC1r planC1 ⟨1, FailStep.copy⟩ (by decide) rfl

/-! ## Characterization of the apply loop. -/

/-- The destinations of the actionable (new/modified) items of a plan. -/
def actionableDests (plan : List PlanItem) : List Path :=
  (plan.filter (fun it => actionable it)).map (fun it => it.destination)

/-- The resolved source paths of a profile. -/
def resolvedSources (env : Env) (syncs : List SyncEntry) : List Path :=
  syncs.map (fun e => env.resolve e.source_file)

/-- The resolved destination paths of a profile. -/
def resolvedDests (env : Env) (syncs : List SyncEntry) : List Path :=
  syncs.map (fun e => env.resolve e.destination_repo_file)

/-- Copy-and-stage succeeds exactly when the source is readable and no
failure is scheduled, writing the destination and staging it. -/
theorem applyCopyStage_ok (f : Option FailStep) (i : Nat) (src dst repo : Path)
    (c c' : ApplyCtx) (h : applyCopyStage f i src dst repo c = (c', none)) :
    ∃ content, c.w.files src = some content ∧
      c' = ⟨⟨fupd c.w.files dst (some content),
             stageAdd c.w.index (repo, dst), c.w.tmps⟩,
            c.backups, c.staged ++ [(repo, dst)]⟩ := by
  simp only [applyCopyStage] at h
  split at h
  · simp at h
  · split at h
    · simp at h
    · rename_i content heq
      split at h
      · simp at h
      · simp only [Prod.mk.injEq] at h
        exact ⟨content, heq, h.1.symm⟩

/-- One actionable iteration succeeds exactly when backup (if needed),
copy and stage all succeed; it records the staged pair and, when the
destination pre-existed as a regular file, the backup. -/
theorem applyOne_ok (env : Env) (f : Option FailStep) (i : Nat) (it : PlanItem)
    (c c' : ApplyCtx) (h : applyOne env f i it c = (c', none)) :
    ∃ content, c.w.files it.source = some content ∧
      c'.w.files = fupd c.w.files it.destination (some content) ∧
      c'.w.index = stageAdd c.w.index (it.git_repo.getD "", it.destination) ∧
      c'.staged = c.staged ++ [(it.git_repo.getD "", it.destination)] ∧
      ((c'.w.tmps = c.w.tmps ∧ c'.backups = c.backups ∧
          os_path_exists env c.w.files it.destination = false) ∨
        (∃ old, c.w.files it.destination = some old ∧
          c'.w.tmps = c.w.tmps ++ [old] ∧
          c'.backups = c.backups ++ [(it.destination, old)])) := by
  simp only [applyOne] at h
  split at h
  · rename_i hex
    split at h
    · simp at h
    · split at h
      · simp at h
      · rename_i old hold
        obtain ⟨content, hsrc, rfl⟩ := applyCopyStage_ok f i it.source it.destination
          (it.git_repo.getD "") _ c' h
        exact ⟨content, hsrc, rfl, rfl, rfl,
          Or.inr ⟨old, hold, rfl, rfl⟩⟩
  · rename_i hex
    obtain ⟨content, hsrc, rfl⟩ := applyCopyStage_ok f i it.source it.destination
      (it.git_repo.getD "") c c' h
    exact ⟨content, hsrc, rfl, rfl, rfl,
      Or.inl ⟨rfl, rfl, by simpa using hex⟩⟩

/-- A failing iteration leaves the index and the staged list unchanged,
may record one backup of the destination (holding its current
content), and either leaves the file map unchanged or has already
copied the source over the destination. -/
theorem applyOne_err (env : Env) (f : Option FailStep) (i : Nat) (it : PlanItem)
    (c c' : ApplyCtx) (e : SyncError) (h : applyOne env f i it c = (c', some e)) :
    c'.w.index = c.w.index ∧
    c'.staged = c.staged ∧
    (∃ bk, c'.backups = c.backups ++ bk ∧
      (bk = [] ∨ ∃ old, c.w.files it.destination = some old ∧
        bk = [(it.destination, old)]) ∧
      ((c.w.files it.destination).isSome = true ∧ bk = [] →
        c'.w.files = c.w.files)) ∧
    (c'.w.files = c.w.files ∨
      ∃ content, c.w.files it.source = some content ∧
        c'.w.files = fupd c.w.files it.destination (some content)) := by
  have herr : ∀ (c0 : ApplyCtx),
      applyCopyStage f i it.source it.destination (it.git_repo.getD "") c0 = (c', some e) →
      c'.w.index = c0.w.index ∧ c'.staged = c0.staged ∧ c'.backups = c0.backups ∧
      c'.w.tmps = c0.w.tmps ∧
      (c'.w.files = c0.w.files ∨
        ∃ content, c0.w.files it.source = some content ∧
          c'.w.files = fupd c0.w.files it.destination (some content)) := by
    intro c0 h0
    simp only [applyCopyStage] at h0
    split at h0
    · simp only [Prod.mk.injEq] at h0
      obtain ⟨rfl, -⟩ := h0
      exact ⟨rfl, rfl, rfl, rfl, Or.inl rfl⟩
    · split at h0
      · simp only [Prod.mk.injEq] at h0
        obtain ⟨rfl, -⟩ := h0
        exact ⟨rfl, rfl, rfl, rfl, Or.inl rfl⟩
      · rename_i content heq
        split at h0
        · simp only [Prod.mk.injEq] at h0
          obtain ⟨rfl, -⟩ := h0
          exact ⟨rfl, rfl, rfl, rfl, Or.inr ⟨content, heq, rfl⟩⟩
        · simp at h0
  simp only [applyOne] at h
  split at h
  · rename_i hex
    split at h
    · simp only [Prod.mk.injEq] at h
      obtain ⟨rfl, -⟩ := h
      exact ⟨rfl, rfl, ⟨[], by simp, Or.inl rfl, fun _ => rfl⟩, Or.inl rfl⟩
    · split at h
      · rename_i hnone
        simp only [Prod.mk.injEq] at h
        obtain ⟨rfl, -⟩ := h
        exact ⟨rfl, rfl, ⟨[], by simp, Or.inl rfl, fun _ => rfl⟩, Or.inl rfl⟩
      · rename_i old hold
        obtain ⟨h1, h2, h3, h4, h5⟩ := herr _ h
        refine ⟨h1, h2, ⟨[(it.destination, old)], by simpa using h3,
          Or.inr ⟨old, hold, rfl⟩, ?_⟩, ?_⟩
        · rintro ⟨-, hcontra⟩
          cases hcontra
        · rcases h5 with h5 | ⟨content, hc, h5⟩
          · exact Or.inl h5
          · exact Or.inr ⟨content, hc, h5⟩
  · rename_i hex
    obtain ⟨h1, h2, h3, h4, h5⟩ := herr c h
    refine ⟨h1, h2, ⟨[], by simpa using h3, Or.inl rfl, ?_⟩, h5⟩
    rintro ⟨hsome, -⟩
    exfalso
    simp only [Bool.not_eq_true, os_path_exists, Bool.or_eq_false_iff] at hex
    rw [hex.1] at hsome
    cases hsome

/-- Membership in the actionable destinations of a plan. -/
theorem mem_actionableDests (plan : List PlanItem) (x : Path) :
    x ∈ actionableDests plan ↔
      ∃ it, it ∈ plan ∧ actionable it = true ∧ it.destination = x := by
  simp only [actionableDests, List.mem_map, List.mem_filter]
  constructor
  · rintro ⟨it, ⟨h1, h2⟩, h3⟩
    exact ⟨it, h1, h2, h3⟩
  · rintro ⟨it, h1, h2, h3⟩
    exact ⟨it, ⟨h1, h2⟩, h3⟩

/-- Actionable destinations of a cons, actionable head. -/
theorem actionableDests_cons_pos (it : PlanItem) (rest : List PlanItem)
    (h : actionable it = true) :
    actionableDests (it :: rest) = it.destination :: actionableDests rest := by
  simp [actionableDests, List.filter_cons, h]

/-- Actionable destinations of a cons, non-actionable head. -/
theorem actionableDests_cons_neg (it : PlanItem) (rest : List PlanItem)
    (h : actionable it = false) :
    actionableDests (it :: rest) = actionableDests rest := by
  simp [actionableDests, List.filter_cons, h]

/-- Master specification of a fully successful apply loop: paths outside
the actionable destinations are untouched; each actionable
destination ends up holding the content its source had when the loop
started; temp files only accumulate; and each actionable destination
that pre-existed left a backup of its original content among the
temp files. -/
theorem applyGo_ok_spec (env : Env) (fail : Nat → Option FailStep) :
    ∀ (rest : List PlanItem) (i : Nat) (c c' : ApplyCtx),
      applyGo env fail rest i c = (c', none) →
      (actionableDests rest).Nodup →
      (∀ it ∈ rest, actionable it = true → ∀ it2 ∈ rest, it.destination ≠ it2.source) →
      (∀ q, q ∉ actionableDests rest → c'.w.files q = c.w.files q) ∧
      (∀ it ∈ rest, actionable it = true →
        c'.w.files it.destination = c.w.files it.source) ∧
      (∀ t ∈ c.w.tmps, t ∈ c'.w.tmps) ∧
      (∀ it ∈ rest, actionable it = true →
        os_path_exists env c.w.files it.destination = true →
        ∃ old, c.w.files it.destination = some old ∧ old ∈ c'.w.tmps)
  | [], i, c, c', h, _, _ => by
      simp only [applyGo, Prod.mk.injEq] at h
      obtain ⟨rfl, -⟩ := h
      exact ⟨fun _ _ => rfl, fun it hit => absurd hit (List.not_mem_nil it),
        fun t ht => ht, fun it hit => absurd hit (List.not_mem_nil it)⟩
  | it :: rest, i, c, c', h, hnd, hsd => by
      by_cases hact : actionable it = true
      · simp only [applyGo] at h
        rw [if_pos hact] at h
        split at h
        · rename_i c1 heq
          obtain ⟨content, hsrc, hfiles, hindex, hstaged, hbk⟩ :=
            applyOne_ok env (fail i) i it c c1 heq
          rw [actionableDests_cons_pos it rest hact] at hnd
          obtain ⟨hdnot, hndr⟩ := List.nodup_cons.mp hnd
          have hsd' : ∀ x ∈ rest, actionable x = true →
              ∀ y ∈ rest, x.destination ≠ y.source := fun x hx hax y hy =>
            hsd x (List.mem_cons_of_mem it hx) hax y (List.mem_cons_of_mem it hy)
          obtain ⟨P1, P2, P3, P4⟩ :=
            applyGo_ok_spec env fail rest (i + 1) c1 c' h hndr hsd'
          have htmp1 : ∀ t ∈ c.w.tmps, t ∈ c1.w.tmps := by
            rcases hbk with ⟨ht, -, -⟩ | ⟨old, -, ht, -⟩
            · rw [ht]
              exact fun t h => h
            · rw [ht]
              exact fun t h => List.mem_append_left _ h
          refine ⟨?_, ?_, ?_, ?_⟩
          · intro q hq
            rw [actionableDests_cons_pos it rest hact] at hq
            have hq1 : q ≠ it.destination := fun hqq => hq (hqq ▸ List.mem_cons_self _ _)
            have hq2 : q ∉ actionableDests rest := fun hh => hq (List.mem_cons_of_mem _ hh)
            rw [P1 q hq2, hfiles]
            simp [fupd, hq1]
          · intro x hx hax
            rcases List.mem_cons.mp hx with rfl | hx
            · rw [P1 x.destination hdnot, hfiles]
              simp [fupd, hsrc]
            · rw [P2 x hx hax, hfiles]
              have hne : x.source ≠ it.destination := fun hh =>
                (hsd it (List.mem_cons_self _ _) hact x (List.mem_cons_of_mem _ hx)) hh.symm
              simp [fupd, hne]
          · intro t ht
            exact P3 t (htmp1 t ht)
          · intro x hx hax hex
            rcases List.mem_cons.mp hx with rfl | hx
            · rcases hbk with ⟨-, -, hexf⟩ | ⟨old, hold, ht, -⟩
              · rw [hexf] at hex
                cases hex
              · refine ⟨old, hold, P3 old ?_⟩
                rw [ht]
                exact List.mem_append_right _ (by simp)
            · have hne : x.destination ≠ it.destination := by
                intro hh
                exact hdnot (hh ▸ (mem_actionableDests rest x.destination).mpr ⟨x, hx, hax, rfl⟩)
              have hfx : c1.w.files x.destination = c.w.files x.destination := by
                rw [hfiles]
                simp [fupd, hne]
              have hex1 : os_path_exists env c1.w.files x.destination = true := by
                simpa [os_path_exists, hfx] using hex
              obtain ⟨old, hold, holdmem⟩ := P4 x hx hax hex1
              rw [hfx] at hold
              exact ⟨old, hold, holdmem⟩
        · rename_i c1 e heq
          simp at h
      · have hact' : actionable it = false := by simpa using hact
        simp only [applyGo] at h
        rw [if_neg (by simp [hact'])] at h
        rw [actionableDests_cons_neg it rest hact'] at hnd
        have hsd' : ∀ x ∈ rest, actionable x = true →
            ∀ y ∈ rest, x.destination ≠ y.source := fun x hx hax y hy =>
          hsd x (List.mem_cons_of_mem it hx) hax y (List.mem_cons_of_mem it hy)
        obtain ⟨P1, P2, P3, P4⟩ := applyGo_ok_spec env fail rest i c c' h hnd hsd'
        refine ⟨?_, ?_, P3, ?_⟩
        · intro q hq
          rw [actionableDests_cons_neg it rest hact'] at hq
          exact P1 q hq
        · intro x hx hax
          rcases List.mem_cons.mp hx with rfl | hx
          · rw [hact'] at hax
            cases hax
          · exact P2 x hx hax
        · intro x hx hax hex
          rcases List.mem_cons.mp hx with rfl | hx
          · rw [hact'] at hax
            cases hax
          · exact P4 x hx hax hex

/-- Membership after a set-like stage insertion. -/
theorem mem_stageAdd (idx : List (Path × Path)) (e x : Path × Path)
    (h : x ∈ stageAdd idx e) : x ∈ idx ∨ x = e := by
  simp only [stageAdd] at h
  split at h
  · exact Or.inl h
  · rcases List.mem_append.mp h with h | h
    · exact Or.inl h
    · exact Or.inr (by simpa using h)

/-- Master specification of a failing apply loop, describing the context
the exception handler sees: paths outside the actionable destinations
are untouched; the recorded backups extend the initial ones by pairs
that hold the original content of distinct actionable destinations;
every actionable destination that pre-existed is either among the
recorded backups or untouched; the staged list only grew; and every
index entry is a pre-existing one or a recorded staged pair. -/
theorem applyGo_err_spec (env : Env) (fail : Nat → Option FailStep) :
    ∀ (rest : List PlanItem) (i : Nat) (c c' : ApplyCtx) (e : SyncError),
      applyGo env fail rest i c = (c', some e) →
      (actionableDests rest).Nodup →
      (∀ q, q ∉ actionableDests rest → c'.w.files q = c.w.files q) ∧
      (∃ nb, c'.backups = c.backups ++ nb ∧ (nb.map Prod.fst).Nodup ∧
        ∀ pq ∈ nb, pq.1 ∈ actionableDests rest ∧ c.w.files pq.1 = some pq.2) ∧
      (∀ it ∈ rest, actionable it = true → (c.w.files it.destination).isSome = true →
        (it.destination ∈ c'.backups.map Prod.fst ∨
          c'.w.files it.destination = c.w.files it.destination)) ∧
      (∃ ns, c'.staged = c.staged ++ ns) ∧
      (∀ x ∈ c'.w.index, x ∈ c.w.index ∨ x ∈ c'.staged)
  | [], i, c, c', e, h, _ => by
      simp only [applyGo, Prod.mk.injEq] at h
      exact Option.noConfusion h.2
  | it :: rest, i, c, c', e, h, hnd => by
      by_cases hact : actionable it = true
      · simp only [applyGo] at h
        rw [if_pos hact] at h
        rw [actionableDests_cons_pos it rest hact] at hnd
        obtain ⟨hdnot, hndr⟩ := List.nodup_cons.mp hnd
        split at h
        · rename_i c1 heq
          obtain ⟨content, hsrc, hfiles, hindex, hstaged, hbk⟩ :=
            applyOne_ok env (fail i) i it c c1 heq
          obtain ⟨P1, ⟨nb, hnbeq, hnbnd, hnbmem⟩, P3, ⟨ns, hnseq⟩, P5⟩ :=
            applyGo_err_spec env fail rest (i + 1) c1 c' e h hndr
          have hc1files : ∀ q, q ≠ it.destination → c1.w.files q = c.w.files q := by
            intro q hq
            rw [hfiles]
            simp [fupd, hq]
          have haDne : ∀ q ∈ actionableDests rest, q ≠ it.destination :=
            fun q hq hqq => hdnot (hqq ▸ hq)
          obtain ⟨bk, hbkeq, hbkcase⟩ :
              ∃ bk, c1.backups = c.backups ++ bk ∧
                (bk = [] ∧ os_path_exists env c.w.files it.destination = false ∨
                  ∃ old, c.w.files it.destination = some old ∧
                    bk = [(it.destination, old)]) := by
            rcases hbk with ⟨-, hb, hexf⟩ | ⟨old, hold, -, hb⟩
            · exact ⟨[], by simp [hb], Or.inl ⟨rfl, hexf⟩⟩
            · exact ⟨[(it.destination, old)], hb, Or.inr ⟨old, hold, rfl⟩⟩
          refine ⟨?_, ?_, ?_, ?_, ?_⟩
          · intro q hq
            rw [actionableDests_cons_pos it rest hact] at hq
            have hq1 : q ≠ it.destination := fun hqq => hq (hqq ▸ List.mem_cons_self _ _)
            have hq2 : q ∉ actionableDests rest := fun hh => hq (List.mem_cons_of_mem _ hh)
            rw [P1 q hq2, hc1files q hq1]
          · refine ⟨bk ++ nb, ?_, ?_, ?_⟩
            · rw [hnbeq, hbkeq, List.append_assoc]
            · rcases hbkcase with ⟨rfl, -⟩ | ⟨old, -, rfl⟩
              · simpa using hnbnd
              · simp only [List.map_append, List.map_cons, List.map_nil,
                  List.singleton_append]
                refine List.nodup_cons.mpr ⟨?_, hnbnd⟩
                intro hmem
                obtain ⟨pq, hpq, hpq1⟩ := List.mem_map.mp hmem
                exact haDne pq.1 (hnbmem pq hpq).1 hpq1
            · intro pq hpq
              rcases List.mem_append.mp hpq with hpq | hpq
              · rcases hbkcase with ⟨rfl, -⟩ | ⟨old, hold, rfl⟩
                · cases hpq
                · rcases List.mem_singleton.mp hpq with rfl
                  rw [actionableDests_cons_pos it rest hact]
                  exact ⟨List.mem_cons_self _ _, hold⟩
              · obtain ⟨hmem, hfil⟩ := hnbmem pq hpq
                rw [actionableDests_cons_pos it rest hact]
                exact ⟨List.mem_cons_of_mem _ hmem,
                  (hc1files pq.1 (haDne pq.1 hmem)).symm.trans hfil⟩
          · intro x hx hax hsome
            rcases List.mem_cons.mp hx with rfl | hx
            · rcases hbkcase with ⟨-, hexf⟩ | ⟨old, hold, rfl⟩
              · exfalso
                simp only [os_path_exists, Bool.or_eq_false_iff] at hexf
                rw [hexf.1] at hsome
                cases hsome
              · left
                rw [hnbeq, hbkeq]
                simp
            · have hne := haDne x.destination
                ((mem_actionableDests rest x.destination).mpr ⟨x, hx, hax, rfl⟩)
              have hsome1 : (c1.w.files x.destination).isSome = true := by
                rw [hc1files x.destination hne]
                exact hsome
              rcases P3 x hx hax hsome1 with hmem | hunch
              · exact Or.inl hmem
              · exact Or.inr ((hunch.trans (hc1files x.destination hne)))
          · exact ⟨(it.git_repo.getD "", it.destination) :: ns, by
              rw [hnseq, hstaged]
              simp⟩
          · intro x hxi
            rcases P5 x hxi with hxi1 | hxi1
            · rw [hindex] at hxi1
              rcases mem_stageAdd c.w.index _ x hxi1 with hh | rfl
              · exact Or.inl hh
              · right
                rw [hnseq, hstaged]
                simp
            · exact Or.inr hxi1
        · rename_i c1 e1 heq
          simp only [Prod.mk.injEq, Option.some.injEq] at h
          obtain ⟨hc, he⟩ := h
          subst hc
          subst he
          obtain ⟨h1, h2, ⟨bk, hbkeq, hbkcase, hbkfr⟩, hfiles⟩ :=
            applyOne_err env (fail i) i it c c1 e1 heq
          refine ⟨?_, ?_, ?_, ⟨[], by simp [h2]⟩, ?_⟩
          · intro q hq
            rw [actionableDests_cons_pos it rest hact] at hq
            have hq1 : q ≠ it.destination := fun hqq => hq (hqq ▸ List.mem_cons_self _ _)
            rcases hfiles with hf | ⟨content, -, hf⟩
            · rw [hf]
            · rw [hf]
              simp [fupd, hq1]
          · refine ⟨bk, hbkeq, ?_, ?_⟩
            · rcases hbkcase with rfl | ⟨old, -, rfl⟩
              · exact List.nodup_nil
              · simp
            · intro pq hpq
              rcases hbkcase with rfl | ⟨old, hold, rfl⟩
              · cases hpq
              · rcases List.mem_singleton.mp hpq with rfl
                rw [actionableDests_cons_pos it rest hact]
                exact ⟨List.mem_cons_self _ _, hold⟩
          · intro x hx hax hsome
            rcases List.mem_cons.mp hx with rfl | hx
            · rcases hbkcase with rfl | ⟨old, hold, rfl⟩
              · exact Or.inr (congrFun (hbkfr ⟨hsome, rfl⟩) x.destination)
              · left
                rw [hbkeq]
                simp
            · have hne : x.destination ≠ it.destination := by
                intro hh
                exact hdnot
                  (hh ▸ (mem_actionableDests rest x.destination).mpr ⟨x, hx, hax, rfl⟩)
              right
              rcases hfiles with hf | ⟨content, -, hf⟩
              · rw [hf]
              · rw [hf]
                simp [fupd, hne]
          · intro x hxi
            rw [h1] at hxi
            exact Or.inl hxi
      · have hact' : actionable it = false := by simpa using hact
        simp only [applyGo] at h
        rw [if_neg (by simp [hact'])] at h
        rw [actionableDests_cons_neg it rest hact'] at hnd
        obtain ⟨P1, P2, P3, P4, P5⟩ := applyGo_err_spec env fail rest i c c' e h hnd
        refine ⟨?_, ?_, ?_, P4, P5⟩
        · intro q hq
          rw [actionableDests_cons_neg it rest hact'] at hq
          exact P1 q hq
        · obtain ⟨nb, h1, h2, h3⟩ := P2
          refine ⟨nb, h1, h2, fun pq hpq => ?_⟩
          obtain ⟨hm, hf⟩ := h3 pq hpq
          rw [actionableDests_cons_neg it rest hact']
          exact ⟨hm, hf⟩
        · intro x hx hax hsome
          rcases List.mem_cons.mp hx with rfl | hx
          · rw [hact'] at hax
            cases hax
          · exact P3 x hx hax hsome

/-! ## Rollback lemmas. -/

/-- Restoring backups leaves paths without a backup untouched. -/
theorem rollbackRestore_files_not_mem :
    ∀ (bks : List (Path × String)) (w : World) (p : Path),
      p ∉ bks.map Prod.fst → (rollbackRestore bks w).files p = w.files p
  | [], _, _, _ => rfl
  | (q, o) :: rest, w, p, h => by
      have h1 : p ≠ q := fun hh => h (by simp [hh])
      have h2 : p ∉ rest.map Prod.fst := fun hh => h (by simp [hh])
      rw [rollbackRestore, rollbackRestore_files_not_mem rest _ p h2]
      simp [fupd, h1]

/-- Restoring backups with distinct paths copies each recorded content
back to its path. -/
theorem rollbackRestore_files_mem :
    ∀ (bks : List (Path × String)) (w : World) (p : Path) (old : String),
      (p, old) ∈ bks → (bks.map Prod.fst).Nodup →
      (rollbackRestore bks w).files p = some old
  | [], _, _, _, h, _ => absurd h (List.not_mem_nil _)
  | (q, o) :: rest, w, p, old, h, hnd => by
      rw [List.map_cons] at hnd
      obtain ⟨hq, hndr⟩ := List.nodup_cons.mp hnd
      rcases List.mem_cons.mp h with heq | hmem
      · obtain ⟨rfl, rfl⟩ := Prod.mk.injEq _ _ _ _ ▸ heq
        rw [rollbackRestore, rollbackRestore_files_not_mem rest _ p hq]
        simp [fupd]
      · rw [rollbackRestore]
        exact rollbackRestore_files_mem rest _ p old hmem hndr

/-- Restoring backups does not touch the index. -/
theorem rollbackRestore_index :
    ∀ (bks : List (Path × String)) (w : World), (rollbackRestore bks w).index = w.index
  | [], _ => rfl
  | (q, o) :: rest, w => by
      rw [rollbackRestore]
      exact rollbackRestore_index rest _

/-- Unstaging does not touch file contents. -/
theorem rollbackUnstage_files (ufail : Nat → Bool) :
    ∀ (l : List (Path × Path)) (j : Nat) (w : World),
      (rollbackUnstage ufail l j w).files = w.files
  | [], _, _ => rfl
  | e :: rest, j, w => by
      rw [rollbackUnstage]
      split
      · exact rollbackUnstage_files ufail rest (j + 1) w
      · exact rollbackUnstage_files ufail rest (j + 1) _

/-- Unstaging only removes index entries. -/
theorem rollbackUnstage_index_subset (ufail : Nat → Bool) :
    ∀ (l : List (Path × Path)) (j : Nat) (w : World) (x : Path × Path),
      x ∈ (rollbackUnstage ufail l j w).index → x ∈ w.index
  | [], _, _, _, h => h
  | e :: rest, j, w, x, h => by
      rw [rollbackUnstage] at h
      split at h
      · exact rollbackUnstage_index_subset ufail rest (j + 1) w x h
      · have hh := rollbackUnstage_index_subset ufail rest (j + 1) _ x h
        exact List.mem_of_mem_filter hh

/-- When every unstage command succeeds, every recorded staged entry is
removed from the index. -/
theorem rollbackUnstage_removed (ufail : Nat → Bool) :
    ∀ (l : List (Path × Path)) (j : Nat) (w : World) (x : Path × Path),
      (∀ j', ufail j' = false) → x ∈ l →
      x ∉ (rollbackUnstage ufail l j w).index
  | [], _, _, x, _, hx => absurd hx (List.not_mem_nil _)
  | e :: rest, j, w, x, hu, hx => by
      rw [rollbackUnstage]
      rw [if_neg (by simp [hu j])]
      rcases List.mem_cons.mp hx with rfl | hx
      · intro hmem
        have hh := rollbackUnstage_index_subset ufail rest (j + 1) _ x hmem
        rw [List.mem_filter] at hh
        simp at hh
      · exact rollbackUnstage_removed ufail rest (j + 1) _ x hu hx

/-! ## Claim theorems (part 3): rollback. -/

/-- Counterexample to C1 as stated: on a two-item plan whose first item
is `new` and whose second fails at the copy step, rollback does not
return the filesystem to its pre-apply state — the file created for
item 1 is not removed, so the destination of item 1 does not hold its
pre-apply content (nonexistence) again. -/
theorem C1_cex :
    applyRaised (apply_plan envC failC1 ufail0 planC1 wC1) = true ∧
    wC1.files "/r/d1" = none ∧
    (applyOutcomeWorld (apply_plan envC failC1 ufail0 planC1 wC1)).files "/r/d1" =
      some "x1" := by
  decide

/-- C1 amended: when `apply_plan` raises on a plan whose actionable
destinations are pairwise distinct, every actionable destination that
existed before the apply is restored to its pre-apply content
(destinations created for `new` items are not removed), and —
best-effort — when every unstage command succeeds the index contains
no entry that was not already there before the apply. -/
theorem C1_rollback_amended (env : Env) (fail : Nat → Option FailStep)
    (ufail : Nat → Bool) (plan : List PlanItem) (w w2 : World) (e : SyncError)
    (hnd : (actionableDests plan).Nodup)
    (h : apply_plan env fail ufail plan w = Except.error (e, w2)) :
    (∀ it ∈ plan, actionable it = true → (w.files it.destination).isSome = true →
      w2.files it.destination = w.files it.destination) ∧
    ((∀ j, ufail j = false) → ∀ x ∈ w2.index, x ∈ w.index) := by
  simp only [apply_plan] at h
  split at h
  · exact Except.noConfusion h
  · rename_i c e0 hg
    simp only [Except.error.injEq, Prod.mk.injEq] at h
    obtain ⟨he, hw⟩ := h
    subst he
    obtain ⟨Q1, ⟨nb, hnbeq, hnbnd, hnbmem⟩, Q3, ⟨ns, hnseq⟩, Q5⟩ :=
      applyGo_err_spec env fail plan 0 ⟨w, [], []⟩ c e0 hg hnd
    have hback : c.backups = nb := by simpa using hnbeq
    have hbnd : (c.backups.map Prod.fst).Nodup := by
      rw [hback]
      exact hnbnd
    constructor
    · intro it hit hact hsome
      have hw2files : w2.files = (rollbackRestore c.backups c.w).files := by
        rw [← hw]
        exact rollbackUnstage_files ufail c.staged 0 _
      by_cases hmem : it.destination ∈ c.backups.map Prod.fst
      · obtain ⟨pq, hpq, hpq1⟩ := List.mem_map.mp hmem
        have hpq2 : pq ∈ nb := by
          rw [← hback]
          exact hpq
        obtain ⟨-, hfil⟩ := hnbmem pq hpq2
        have hres := rollbackRestore_files_mem c.backups c.w pq.1 pq.2 (by
          rcases pq with ⟨p1, p2⟩
          exact hpq) hbnd
        rw [hw2files, ← hpq1, hres]
        exact hfil.symm
      · rw [hw2files, rollbackRestore_files_not_mem c.backups c.w it.destination hmem]
        rcases Q3 it hit hact hsome with hmem2 | hunch
        · exact absurd hmem2 hmem
        · exact hunch
    · intro hu x hx
      rw [← hw] at hx
      have hx1 := rollbackUnstage_index_subset ufail c.staged 0 _ x hx
      have hx2 : x ∉ c.staged := fun hmem =>
        (rollbackUnstage_removed ufail c.staged 0 _ x hu hmem) hx
      rw [rollbackRestore_index] at hx1
      rcases Q5 x hx1 with h5 | h5
      · exact h5
      · exact absurd h5 hx2

/-- Witness for amended C1 at the concrete failing two-item apply: the
pre-existing destination of item 2 is restored, and the staged entry
for item 1 is unstaged. -/
theorem C1_rollback_amended_witness :
    wC1r.files "/r/d2" = wC1.files "/r/d2" ∧ ("/r", "/r/d1") ∉ wC1r.index := by
  have h := C1_rollback_amended envC failC1 ufail0 planC1 wC1 wC1r
    ⟨1, FailStep.copy⟩ (by decide) rfl
  refine ⟨h.1 ⟨"/s2", "/r/d2", ItemKind.modified, some "/r", none⟩
    (by decide) (by decide) (by decide), ?_⟩
  intro hx
  exact absurd (h.2 (fun _ => rfl) ("/r", "/r/d1") hx) (by decide)

/-! ## Stability of destination validation under file changes. -/

/-- Inversion of destination validation: the returned path is the
resolved one, and the result is either the invalid shape `(0, none)`
or a truthy repo root with status 1/2 tracking file existence. -/
theorem ivdf_inv (env : Env) (fuel : Nat) (files : Files) (s : String)
    (dst : Path) (st : Nat) (root : Option Path)
    (h : is_valid_destination_file env fuel files s = some (dst, st, root)) :
    dst = env.resolve s ∧
    ((st = 0 ∧ root = none) ∨
      (pyTruthyOpt root = true ∧ file_dir_exists env (env.resolve s) = true ∧
        locate_git_repo env fuel (env.resolve s) = some root ∧
        ((st = 1 ∧ file_exists files (env.resolve s) = false) ∨
          (st = 2 ∧ file_exists files (env.resolve s) = true)))) := by
  simp only [is_valid_destination_file] at h
  split at h
  · rename_i hdir
    split at h
    · exact Option.noConfusion h
    · rename_i grp hloc
      split at h
      · rename_i htr
        split at h
        · rename_i hex
          simp only [Option.some.injEq, Prod.mk.injEq] at h
          obtain ⟨rfl, rfl, rfl⟩ := h
          exact ⟨rfl, Or.inr ⟨htr, hdir, hloc, Or.inr ⟨rfl, hex⟩⟩⟩
        · rename_i hex
          simp only [Option.some.injEq, Prod.mk.injEq] at h
          obtain ⟨rfl, rfl, rfl⟩ := h
          exact ⟨rfl, Or.inr ⟨htr, hdir, hloc, Or.inl ⟨rfl, by simpa using hex⟩⟩⟩
      · rename_i htr
        simp only [Option.some.injEq, Prod.mk.injEq] at h
        obtain ⟨rfl, rfl, rfl⟩ := h
        exact ⟨rfl, Or.inl ⟨rfl, rfl⟩⟩
  · rename_i hdir
    simp only [Option.some.injEq, Prod.mk.injEq] at h
    obtain ⟨rfl, rfl, rfl⟩ := h
    exact ⟨rfl, Or.inl ⟨rfl, rfl⟩⟩

/-- A `(0, none)` validation result does not depend on file contents. -/
theorem ivdf_zero_stable (env : Env) (fuel : Nat) (files files2 : Files) (s : String)
    (dst : Path)
    (h : is_valid_destination_file env fuel files s = some (dst, 0, none)) :
    is_valid_destination_file env fuel files2 s = some (dst, 0, none) := by
  simp only [is_valid_destination_file] at h ⊢
  split at h
  · rename_i hdir
    rw [if_pos hdir]
    split at h
    · exact Option.noConfusion h
    · rename_i grp hloc
      split at h
      · rename_i htr
        split at h <;>
          · simp only [Option.some.injEq, Prod.mk.injEq] at h
            exact absurd h.2.1 (by decide)
      · rename_i htr
        simp only [Option.some.injEq, Prod.mk.injEq] at h
        obtain ⟨rfl, -, -⟩ := h
        rw [if_neg htr]
  · rename_i hdir
    rw [if_neg hdir]
    simpa using h

/-- A validation result with a truthy repo root keeps the same path and
root when recomputed over changed file contents; only the 1/2 status
tracks the (possibly new) existence of the destination. -/
theorem ivdf_truthy_stable (env : Env) (fuel : Nat) (files files2 : Files)
    (s : String) (dst : Path) (st : Nat) (root : Option Path)
    (h : is_valid_destination_file env fuel files s = some (dst, st, root))
    (htr : pyTruthyOpt root = true) :
    is_valid_destination_file env fuel files2 s =
      some (dst, if file_exists files2 dst then 2 else 1, root) := by
  obtain ⟨hfst, hcase⟩ := ivdf_inv env fuel files s dst st root h
  rcases hcase with ⟨-, rfl⟩ | ⟨-, hdir, hloc, -⟩
  · simp [pyTruthyOpt] at htr
  · subst hfst
    simp only [is_valid_destination_file]
    rw [if_pos hdir]
    simp only [hloc]
    rw [if_pos htr]
    by_cases hex : file_exists files2 (env.resolve s) = true
    · rw [if_pos hex, if_pos hex]
    · rw [if_neg hex, if_neg hex]

/-- A successful deep comparison means both sides are regular files with
the same content. -/
theorem filecmp_cmp_true (files : Files) (a b : Path)
    (h : filecmp_cmp files a b = true) :
    ∃ x, files a = some x ∧ files b = some x := by
  simp only [filecmp_cmp] at h
  split at h
  · rename_i x y ha hb
    exact ⟨x, ha, by rw [hb, of_decide_eq_true h]⟩
  · cases h

/-- A failed deep comparison with a readable left side means the
contents differ. -/
theorem filecmp_cmp_false_ne (files : Files) (a b : Path)
    (h : filecmp_cmp files a b = false) (ha : (files a).isSome = true) :
    files a ≠ files b := by
  intro heq
  rcases hfa : files a with _ | x
  · rw [hfa] at ha
    cases ha
  · have hfb : files b = some x := heq ▸ hfa
    rw [filecmp_cmp, hfa, hfb] at h
    simp at h

/-- Every plan item records the resolved source path. -/
theorem planEntry_source_eq (env : Env) (fuel : Nat) (files : Files) (e : SyncEntry)
    (it : PlanItem) (h : planEntry env fuel files e = some it) :
    it.source = env.resolve e.source_file := by
  rcases planEntry_inv env fuel files e it h with ⟨-, rfl⟩ | ⟨-, dst, st, root, -, hc⟩
  · rfl
  · rcases hc with ⟨-, rfl⟩ | ⟨-, ⟨-, rfl⟩ | ⟨-, ⟨-, rfl⟩ | ⟨-, rfl⟩⟩⟩ <;> rfl

/-- Actionable plan items record the resolved destination path. -/
theorem planEntry_actionable_dest (env : Env) (fuel : Nat) (files : Files)
    (e : SyncEntry) (it : PlanItem) (h : planEntry env fuel files e = some it)
    (hact : actionable it = true) :
    it.destination = env.resolve e.destination_repo_file := by
  rcases planEntry_inv env fuel files e it h with ⟨-, rfl⟩ | ⟨-, dst, st, root, hd, hc⟩
  · simp [actionable, srcErrItem] at hact
  · obtain ⟨hfst, -⟩ := ivdf_inv env fuel files e.destination_repo_file dst st root hd
    rcases hc with ⟨-, rfl⟩ | ⟨-, ⟨-, rfl⟩ | ⟨-, ⟨-, rfl⟩ | ⟨-, rfl⟩⟩⟩
    · simp [actionable, dstErrItem] at hact
    · exact hfst
    · exact hfst
    · exact hfst

/-- Actionable plan items come from an existing source file. -/
theorem planEntry_actionable_src (env : Env) (fuel : Nat) (files : Files)
    (e : SyncEntry) (it : PlanItem) (h : planEntry env fuel files e = some it)
    (hact : actionable it = true) :
    (files (env.resolve e.source_file)).isSome = true := by
  rcases planEntry_inv env fuel files e it h with ⟨-, rfl⟩ | ⟨hs, -, -, -, -, -⟩
  · simp [actionable, srcErrItem] at hact
  · exact hs

/-- Items of kind `modified` satisfy the modified-branch conditions. -/
theorem planEntry_modified_inv (env : Env) (fuel : Nat) (files : Files)
    (e : SyncEntry) (it : PlanItem) (h : planEntry env fuel files e = some it)
    (hk : it.kind = ItemKind.modified) :
    os_path_exists env files it.destination = true ∧
    filecmp_cmp files it.source it.destination = false := by
  rcases planEntry_inv env fuel files e it h with ⟨-, rfl⟩ | ⟨-, dst, st, root, hd, hc⟩
  · simp [srcErrItem] at hk
  · rcases hc with ⟨-, rfl⟩ | ⟨-, ⟨hex, rfl⟩ | ⟨hex, ⟨hcmp, rfl⟩ | ⟨hcmp, rfl⟩⟩⟩
    · simp [dstErrItem] at hk
    · simp [okItem] at hk
    · simp [okItem] at hk
    · exact ⟨hex, hcmp⟩

/-- The actionable destinations of a computed plan form a sublist of the
resolved destinations of the profile. -/
theorem actionableDests_sublist (env : Env) (fuel : Nat) (files : Files) :
    ∀ (syncs : List SyncEntry) (plan : List PlanItem),
      plan_syncs env fuel files syncs = some plan →
      (actionableDests plan).Sublist (resolvedDests env syncs)
  | [], plan, h => by
      simp only [plan_syncs] at h
      cases h
      simp [actionableDests, resolvedDests]
  | e :: rest, plan, h => by
      simp only [plan_syncs] at h
      split at h
      · rename_i it pl hpe hps
        cases h
        have ih := actionableDests_sublist env fuel files rest pl hps
        by_cases hact : actionable it = true
        · rw [actionableDests_cons_pos it pl hact,
            planEntry_actionable_dest env fuel files e it hpe hact]
          exact List.Sublist.cons₂ _ ih
        · have hact2 : actionable it = false := by simpa using hact
          rw [actionableDests_cons_neg it pl hact2]
          exact List.Sublist.cons _ ih
      · exact Option.noConfusion h

/-- Every profile entry contributes its planner output to the plan. -/
theorem plan_syncs_entry (env : Env) (fuel : Nat) (files : Files) :
    ∀ (syncs : List SyncEntry) (plan : List PlanItem),
      plan_syncs env fuel files syncs = some plan →
      ∀ e ∈ syncs, ∃ it, planEntry env fuel files e = some it ∧ it ∈ plan
  | [], _, _, e, he => absurd he (List.not_mem_nil _)
  | e0 :: rest, plan, h, e, he => by
      simp only [plan_syncs] at h
      split at h
      · rename_i it0 pl hpe hps
        cases h
        rcases List.mem_cons.mp he with rfl | he
        · exact ⟨it0, hpe, List.mem_cons_self _ _⟩
        · obtain ⟨it, h1, h2⟩ := plan_syncs_entry env fuel files rest pl hps e he
          exact ⟨it, h1, List.mem_cons_of_mem _ h2⟩
      · exact Option.noConfusion h

/-- Replanning one entry after the files changed: if the source kept its
content, a non-actionable destination kept its content, and an
actionable destination now holds the source content, the entry plans
as `skipped` or `error`. -/
theorem planEntry_after (env : Env) (fuel : Nat) (wf wf2 : Files) (e : SyncEntry)
    (it : PlanItem) (h : planEntry env fuel wf e = some it)
    (hs : wf2 (env.resolve e.source_file) = wf (env.resolve e.source_file))
    (hdq : actionable it = false →
      wf2 (env.resolve e.destination_repo_file) =
        wf (env.resolve e.destination_repo_file))
    (hda : actionable it = true →
      ∃ content, wf (env.resolve e.source_file) = some content ∧
        wf2 (env.resolve e.destination_repo_file) = some content) :
    ∃ it2, planEntry env fuel wf2 e = some it2 ∧
      (it2.kind = ItemKind.skipped ∨ it2.kind = ItemKind.error) := by
  rcases planEntry_inv env fuel wf e it h with ⟨hsv, rfl⟩ | ⟨hsv, dst, st, root, hd, hc⟩
  · have hsv2 : (is_valid_source_file env wf2 e.source_file).2 = false := by
      show (wf2 (env.resolve e.source_file)).isSome = false
      rw [hs]
      exact hsv
    exact ⟨_, planEntry_src_missing env fuel wf2 e hsv2, Or.inr rfl⟩
  · have hsv2 : (is_valid_source_file env wf2 e.source_file).2 = true := by
      show (wf2 (env.resolve e.source_file)).isSome = true
      rw [hs]
      exact hsv
    obtain ⟨hfst, hicase⟩ := ivdf_inv env fuel wf e.destination_repo_file dst st root hd
    rcases hc with ⟨h0, rfl⟩ | ⟨h0, hc2⟩
    · -- destination error reproduces
      rcases hicase with ⟨hst0, hrt⟩ | ⟨htr, -, -, hstex⟩
      · subst hst0
        subst hrt
        have hd2 := ivdf_zero_stable env fuel wf wf2 e.destination_repo_file dst hd
        exact ⟨_, planEntry_dst_error env fuel wf2 e dst 0 none hsv2 hd2 (Or.inl rfl),
          Or.inr rfl⟩
      · exfalso
        rcases h0 with h0 | h0
        · rcases hstex with ⟨rfl, -⟩ | ⟨rfl, -⟩ <;> exact absurd h0 (by decide)
        · rw [htr] at h0
          cases h0
    · -- non-error branches: the repo root is truthy
      have htr : pyTruthyOpt root = true := by
        rcases Bool.eq_false_or_eq_true (pyTruthyOpt root) with hb | hb
        · exact hb
        · exact absurd (Or.inr hb) h0
      have h02 : ¬(2 = 0 ∨ pyTruthyOpt root = false) := by
        rintro (hx | hx)
        · exact absurd hx (by decide)
        · rw [htr] at hx
          cases hx
      subst hfst
      rcases hc2 with ⟨hex, rfl⟩ | ⟨hex, ⟨hcmp, rfl⟩ | ⟨hcmp, rfl⟩⟩
      · -- was `new`: now identical, plans as skipped
        obtain ⟨content, hcon, hdc⟩ := hda (by rfl)
        have hfe : file_exists wf2 (env.resolve e.destination_repo_file) = true := by
          simp [file_exists, hdc]
        have hd2 := ivdf_truthy_stable env fuel wf wf2 e.destination_repo_file
          (env.resolve e.destination_repo_file) st root hd htr
        rw [hfe, if_pos rfl] at hd2
        refine ⟨_, planEntry_skipped env fuel wf2 e
          (env.resolve e.destination_repo_file) 2 root hsv2 hd2 h02 ?_ ?_, Or.inl rfl⟩
        · simp [os_path_exists, hdc]
        · show filecmp_cmp wf2 (env.resolve e.source_file) _ = true
          rw [filecmp_cmp, hs, hcon, hdc]
          simp
      · -- was `skipped`: stays skipped
        have hdq2 := hdq (by rfl)
        obtain ⟨x, hx1, hx2⟩ := filecmp_cmp_true wf (env.resolve e.source_file)
          (env.resolve e.destination_repo_file) hcmp
        have hfe : file_exists wf2 (env.resolve e.destination_repo_file) = true := by
          simp [file_exists, hdq2, hx2]
        have hd2 := ivdf_truthy_stable env fuel wf wf2 e.destination_repo_file
          (env.resolve e.destination_repo_file) st root hd htr
        rw [hfe, if_pos rfl] at hd2
        refine ⟨_, planEntry_skipped env fuel wf2 e
          (env.resolve e.destination_repo_file) 2 root hsv2 hd2 h02 ?_ ?_, Or.inl rfl⟩
        · simp [os_path_exists, hdq2, hx2]
        · show filecmp_cmp wf2 (env.resolve e.source_file) _ = true
          rw [filecmp_cmp, hs, hdq2, hx1, hx2]
          simp
      · -- was `modified`: now identical, plans as skipped
        obtain ⟨content, hcon, hdc⟩ := hda (by rfl)
        have hfe : file_exists wf2 (env.resolve e.destination_repo_file) = true := by
          simp [file_exists, hdc]
        have hd2 := ivdf_truthy_stable env fuel wf wf2 e.destination_repo_file
          (env.resolve e.destination_repo_file) st root hd htr
        rw [hfe, if_pos rfl] at hd2
        refine ⟨_, planEntry_skipped env fuel wf2 e
          (env.resolve e.destination_repo_file) 2 root hsv2 hd2 h02 ?_ ?_, Or.inl rfl⟩
        · simp [os_path_exists, hdc]
        · show filecmp_cmp wf2 (env.resolve e.source_file) _ = true
          rw [filecmp_cmp, hs, hcon, hdc]
          simp

/-- Building the second plan from per-entry outputs. -/
theorem plan_syncs_of_entries (env : Env) (fuel : Nat) (files2 : Files) :
    ∀ (syncs : List SyncEntry),
      (∀ e ∈ syncs, ∃ it2, planEntry env fuel files2 e = some it2 ∧
        (it2.kind = ItemKind.skipped ∨ it2.kind = ItemKind.error)) →
      ∃ plan2, plan_syncs env fuel files2 syncs = some plan2 ∧
        ∀ it ∈ plan2, it.kind = ItemKind.skipped ∨ it.kind = ItemKind.error
  | [], _ => ⟨[], rfl, fun it hit => absurd hit (List.not_mem_nil _)⟩
  | e :: rest, h => by
      obtain ⟨it2, hit2, hk⟩ := h e (List.mem_cons_self _ _)
      obtain ⟨plan2, hplan2, hks⟩ := plan_syncs_of_entries env fuel files2 rest
        (fun x hx => h x (List.mem_cons_of_mem _ hx))
      refine ⟨it2 :: plan2, ?_, ?_⟩
      · simp only [plan_syncs, hit2, hplan2]
      · intro it hit
        rcases List.mem_cons.mp hit with rfl | hit
        · exact hk
        · exact hks it hit

/-! ## Claim theorems (part 4): idempotence and modified items. -/

/-- Counterexample to C4 as stated: a profile with two definitions that
share a destination (allowed by the configuration layer) plans both
as `modified`; after a successful apply the destination holds the
content of the second source, so replanning yields a `modified` item
again, not only skipped/error items. -/
theorem C4_cex :
    plan_syncs envC 5 filesC4 syncsC4 = some planC4 ∧
    applyRaised (apply_plan envC fail0 ufail0 planC4 wC4) = false ∧
    plan_syncs envC 5
      (applyOutcomeWorld (apply_plan envC fail0 ufail0 planC4 wC4)).files syncsC4 =
      some [⟨"/a", "/r/d", ItemKind.modified, some "/r", none⟩,
            ⟨"/b", "/r/d", ItemKind.skipped, some "/r", none⟩] ∧
    ItemKind.modified ≠ ItemKind.skipped ∧ ItemKind.modified ≠ ItemKind.error := by
  decide

/-- C4 amended: idempotence holds for profiles whose resolved
destinations are pairwise distinct and disjoint from the resolved
sources: replanning right after a successful apply yields only
skipped and error items. -/
theorem C4_idempotent_amended (env : Env) (fuel : Nat) (fail : Nat → Option FailStep)
    (ufail : Nat → Bool) (syncs : List SyncEntry) (w w2 : World)
    (plan : List PlanItem)
    (hnd : (resolvedDests env syncs).Nodup)
    (hds : ∀ d ∈ resolvedDests env syncs, d ∉ resolvedSources env syncs)
    (hp : plan_syncs env fuel w.files syncs = some plan)
    (ha : apply_plan env fail ufail plan w = Except.ok w2) :
    ∃ plan2, plan_syncs env fuel w2.files syncs = some plan2 ∧
      ∀ it ∈ plan2, it.kind = ItemKind.skipped ∨ it.kind = ItemKind.error := by
  simp only [apply_plan] at ha
  split at ha
  · rename_i c hg
    simp only [Except.ok.injEq] at ha
    subst ha
    have hsd_plan : ∀ it ∈ plan, actionable it = true →
        ∀ it2 ∈ plan, it.destination ≠ it2.source := by
      intro it hit hact it2 hit2 heq
      obtain ⟨e, he, hpe⟩ := plan_syncs_mem env fuel w.files syncs plan hp it hit
      obtain ⟨e2, he2, hpe2⟩ := plan_syncs_mem env fuel w.files syncs plan hp it2 hit2
      have h1 := planEntry_actionable_dest env fuel w.files e it hpe hact
      have h2 := planEntry_source_eq env fuel w.files e2 it2 hpe2
      have hmemd : it.destination ∈ resolvedDests env syncs := by
        rw [h1]
        exact List.mem_map_of_mem _ he
      have hmems : it2.source ∈ resolvedSources env syncs := by
        rw [h2]
        exact List.mem_map_of_mem _ he2
      exact hds it.destination hmemd (heq ▸ hmems)
    have hnd_plan : (actionableDests plan).Nodup :=
      List.Nodup.sublist (actionableDests_sublist env fuel w.files syncs plan hp) hnd
    obtain ⟨P1, P2, P3, P4⟩ :=
      applyGo_ok_spec env fail plan 0 ⟨w, [], []⟩ c hg hnd_plan hsd_plan
    have hsrc_not : ∀ e ∈ syncs, env.resolve e.source_file ∉ actionableDests plan := by
      intro e he hmem
      obtain ⟨it2, hit2, hact2, hdst2⟩ := (mem_actionableDests plan _).mp hmem
      obtain ⟨e2, he2, hpe2⟩ := plan_syncs_mem env fuel w.files syncs plan hp it2 hit2
      have hd2 := planEntry_actionable_dest env fuel w.files e2 it2 hpe2 hact2
      refine hds (env.resolve e2.destination_repo_file) (List.mem_map_of_mem _ he2) ?_
      rw [hd2.symm.trans hdst2]
      exact List.mem_map_of_mem _ he
    have hdst_not : ∀ e ∈ syncs, ∀ it, planEntry env fuel w.files e = some it →
        actionable it = false →
        env.resolve e.destination_repo_file ∉ actionableDests plan := by
      intro e he it hpe hact hmem
      obtain ⟨it2, hit2, hact2, hdst2⟩ := (mem_actionableDests plan _).mp hmem
      obtain ⟨e2, he2, hpe2⟩ := plan_syncs_mem env fuel w.files syncs plan hp it2 hit2
      have hd2 := planEntry_actionable_dest env fuel w.files e2 it2 hpe2 hact2
      have heq : env.resolve e2.destination_repo_file =
          env.resolve e.destination_repo_file := hd2.symm.trans hdst2
      have hee : e2 = e := List.inj_on_of_nodup_map hnd he2 he heq
      subst hee
      have hii : it2 = it := by
        have hx := hpe2.symm.trans hpe
        exact (Option.some.injEq _ _).mp hx
      rw [hii, hact] at hact2
      cases hact2
    refine plan_syncs_of_entries env fuel c.w.files syncs ?_
    intro e he
    obtain ⟨it, hpe, hit⟩ := plan_syncs_entry env fuel w.files syncs plan hp e he
    refine planEntry_after env fuel w.files c.w.files e it hpe ?_ ?_ ?_
    · exact P1 _ (hsrc_not e he)
    · intro hact
      exact P1 _ (hdst_not e he it hpe hact)
    · intro hact
      have hsome := planEntry_actionable_src env fuel w.files e it hpe hact
      obtain ⟨content, hcon⟩ := Option.isSome_iff_exists.mp hsome
      refine ⟨content, hcon, ?_⟩
      have h2 := P2 it hit hact
      rw [planEntry_actionable_dest env fuel w.files e it hpe hact,
        planEntry_source_eq env fuel w.files e it hpe] at h2
      rw [h2]
      exact hcon
  · rename_i c e0 hg
    simp at ha

/-- Witness for amended C4 at the concrete two-item profile with
distinct destinations. -/
theorem C4_idempotent_amended_witness :
    ∃ plan2, plan_syncs envC 5 wC1ok.files syncsC1 = some plan2 ∧
      ∀ it ∈ plan2, it.kind = ItemKind.skipped ∨ it.kind = ItemKind.error :=
  C4_idempotent_amended envC 5 fail0 ufail0 syncsC1 wC1 wC1ok planC1
    (by decide) (by decide) (by decide) rfl

/-- Counterexample to C6 as stated: after a successful apply of a
modified item the temporary backup file still holds the prior
destination content — nothing discards it — so the prior content
remains recoverable after the run. -/
theorem C6_cex :
    applyRaised (apply_plan envC fail0 ufail0 planB wB) = false ∧
    wB.files "/r/d" = some "old" ∧
    (applyOutcomeWorld (apply_plan envC fail0 ufail0 planB wB)).files "/r/d" =
      some "x" ∧
    (applyOutcomeWorld (apply_plan envC fail0 ufail0 planB wB)).tmps = ["old"] := by
  decide

/-- C6 amended: for profiles with pairwise-distinct resolved
destinations disjoint from the sources, a destination existing with
different content plans as `modified`; after a successful apply it
holds the source content, and its prior content survives in the
temporary backup file, which is never deleted (only the in-memory
list of backups is dropped). -/
theorem C6_modified_amended (env : Env) (fuel : Nat) (fail : Nat → Option FailStep)
    (ufail : Nat → Bool) (syncs : List SyncEntry) (w w2 : World)
    (plan : List PlanItem)
    (hnd : (resolvedDests env syncs).Nodup)
    (hds : ∀ d ∈ resolvedDests env syncs, d ∉ resolvedSources env syncs)
    (hp : plan_syncs env fuel w.files syncs = some plan)
    (ha : apply_plan env fail ufail plan w = Except.ok w2) :
    ∀ it ∈ plan, it.kind = ItemKind.modified →
      w2.files it.destination = w.files it.source ∧
      w.files it.destination ≠ w.files it.source ∧
      ∃ old, w.files it.destination = some old ∧ old ∈ w2.tmps := by
  simp only [apply_plan] at ha
  split at ha
  · rename_i c hg
    simp only [Except.ok.injEq] at ha
    subst ha
    have hsd_plan : ∀ it ∈ plan, actionable it = true →
        ∀ it2 ∈ plan, it.destination ≠ it2.source := by
      intro it hit hact it2 hit2 heq
      obtain ⟨e, he, hpe⟩ := plan_syncs_mem env fuel w.files syncs plan hp it hit
      obtain ⟨e2, he2, hpe2⟩ := plan_syncs_mem env fuel w.files syncs plan hp it2 hit2
      have h1 := planEntry_actionable_dest env fuel w.files e it hpe hact
      have h2 := planEntry_source_eq env fuel w.files e2 it2 hpe2
      have hmemd : it.destination ∈ resolvedDests env syncs := by
        rw [h1]
        exact List.mem_map_of_mem _ he
      have hmems : it2.source ∈ resolvedSources env syncs := by
        rw [h2]
        exact List.mem_map_of_mem _ he2
      exact hds it.destination hmemd (heq ▸ hmems)
    have hnd_plan : (actionableDests plan).Nodup :=
      List.Nodup.sublist (actionableDests_sublist env fuel w.files syncs plan hp) hnd
    obtain ⟨P1, P2, P3, P4⟩ :=
      applyGo_ok_spec env fail plan 0 ⟨w, [], []⟩ c hg hnd_plan hsd_plan
    intro it hit hk
    have hact : actionable it = true := by simp [actionable, hk]
    obtain ⟨e, he, hpe⟩ := plan_syncs_mem env fuel w.files syncs plan hp it hit
    obtain ⟨hex, hcmp⟩ := planEntry_modified_inv env fuel w.files e it hpe hk
    have hsome : (w.files it.source).isSome = true := by
      rw [planEntry_source_eq env fuel w.files e it hpe]
      exact planEntry_actionable_src env fuel w.files e it hpe hact
    refine ⟨P2 it hit hact, ?_, P4 it hit hact hex⟩
    exact (filecmp_cmp_false_ne w.files it.source it.destination hcmp hsome).symm
  · rename_i c e0 hg
    simp at ha

/-- Witness for amended C6 at the concrete one-item modified profile. -/
theorem C6_modified_amended_witness :
    wBr.files "/r/d" = wB.files "/s" ∧
    wB.files "/r/d" ≠ wB.files "/s" ∧
    ∃ old, wB.files "/r/d" = some old ∧ old ∈ wBr.tmps :=
  C6_modified_amended envC 5 fail0 ufail0 syncsB wB wBr planB
    (by decide) (by decide) (by decide) rfl
    ⟨"/s", "/r/d", ItemKind.modified, some "/r", none⟩ (by decide) rfl

end Synk
